import Mathlib

/-!
Verification of the bnflite grammar-interpreter core (`src/bnflite.h`).

The interpreter is shallowly embedded: the cursor stack `cntxV` of the C++
`_Base`/`_Parser` context becomes a `List Nat` of byte positions into the
input, the semantic stack `cntxU` of `_Parser<U>` becomes an optional list of
matched spans `(begin, end)` (the payload of an `Interface` value is opaque to
the engine, so a span is all the engine-visible content of a stub), and the
status `int` becomes a `Nat` below `2 ^ 32` manipulated with `&&&`/`|||` and a
32-bit masked complement.  The input C string is a `List Nat` of byte values;
reading at or past the end yields the sentinel byte `0`, exactly as the
NUL-terminated C string does.  Each `_parse` member function of `Token`,
`_Ctrl`, `_And`, `_Or`, `_Cycle`, `Lexem` and `Rule` is translated clause by
clause into one arm of `parse` below; the `for` loops of `_And::_parse`,
`_Or::_parse` and `_Cycle::_parse` become the recursive helpers `andLoop`,
`orLoop` and `cycLoop`.  `Action` (predicate callback) nodes and user-supplied
reducer bodies are not modelled: no claim under scrutiny mentions them, and a
`Rule` with a bound callback differs from an unbound one only in which spans
are recorded (`hasCb` below), never in the reduced payload, which the engine
treats as opaque.  The virtual `Catch` hook is the default one, which returns
`0`, so the `eTry` branch of `_And::_parse` ORs nothing into the status and is
omitted.
-/

set_option maxHeartbeats 1600000

namespace Bnf

/-! ### Status bits (`enum Status`) -/

def eOk : Nat := 1
def eRet : Nat := 0x8
def e1st : Nat := 0x10
def eSkipBit : Nat := 0x20
def eCatch : Nat := 0x40
def eTry : Nat := 0x80
def eRest : Nat := 0x100
def eNull : Nat := 0x200
def eOver : Nat := 0x400
def eEof : Nat := 0x800
def eBadRule : Nat := 0x1000
def eBadLexem : Nat := 0x2000
def eError : Nat := 0x80000000

/-- `s & ~m` on a 32-bit status word: all statuses stay below `2 ^ 32`. -/
def andNot (s m : Nat) : Nat := s &&& (0xFFFFFFFF ^^^ m)

/-! ### Input access

The input of `Analyze` is a NUL-terminated byte string; `byteAt` reads the
byte at a position, with every position at or beyond the length reading the
sentinel `0`. -/

def byteAt (inp : List Nat) (p : Nat) : Nat := inp.getD p 0

/-- Whitespace recognised by the default `_Base::zero_parse`:
space, tab, newline, carriage return. -/
def isWs (c : Nat) : Bool := c == 32 || c == 9 || c == 10 || c == 13

/-- Length of the whitespace run at the head of a byte list (a run stops at
the first non-whitespace byte; the sentinel `0` is not whitespace). -/
def wsRun : List Nat → Nat
  | [] => 0
  | c :: r => if isWs c then wsRun r + 1 else 0

/-- `_Base::zero_parse`: advance the cursor over whitespace, stopping at the
sentinel or at the first non-whitespace byte. -/
def zero_parse (inp : List Nat) (p : Nat) : Nat := p + wsRun (inp.drop p)

/-! ### Parse context (`_Base` / `_Parser<U>`) -/

/-- A recorded span on the semantic stack: begin and end positions. -/
abbrev Span := Nat × Nat

/-- The mutable context of one parse run: the cursor stack `cntxV`, the
lexical/syntactic mode level, the current semantic frame `cntxU`
(`none` models a null `cntxU` pointer) and the frame offset `off`. -/
structure PState where
  cntxV : List Nat
  level : Nat
  cntxU : Option (List Span)
  off : Nat
deriving Repr, DecidableEq

/-- `cntxV.back()`: the current cursor position (top of the stack). -/
def back (s : PState) : Nat := s.cntxV.getLastD 0

/-- `std::vector::resize` on the cursor stack (shrinks by truncation, grows by
padding with the default value). -/
def resizeV (v : List Nat) (n : Nat) : List Nat :=
  v.take n ++ List.replicate (n - v.length) 0

/-- `_Parser::_stub_call`: push a span onto the semantic frame when the frame
pointer is non-null. -/
def stubPush (u : Option (List Span)) (b e : Nat) : Option (List Span) :=
  u.map (fun l => l ++ [(b, e)])

/-- `_Parser::_erase(low)`: truncate the cursor stack to `low` entries, and in
syntactic mode with a live frame truncate the semantic frame to
`(low - off) / 2` entries. -/
def eraseTo (s : PState) (low : Nat) : PState :=
  { s with
    cntxV := s.cntxV.take low,
    cntxU := if s.level ≠ 0 then s.cntxU.map (fun u => u.take ((low - s.off) / 2))
             else s.cntxU }

/-- `_Parser::_erase(low, hi)`: erase the cursor-stack range `[low, hi)` and
the corresponding semantic range. -/
def eraseRange (s : PState) (low hi : Nat) : PState :=
  { s with
    cntxV := s.cntxV.take low ++ s.cntxV.drop hi,
    cntxU := if s.level ≠ 0 then
               s.cntxU.map (fun u => u.take ((low - s.off) / 2) ++ u.drop ((hi - s.off) / 2))
             else s.cntxU }

/-! ### Grammar nodes (`_Tie` hierarchy) -/

/-- Grammar nodes.  `tok` is `Token` (its byte class listed by members),
`ctrl` is `_Ctrl<flg>`, `seq` is `_And` with its ordered children, `alt` is
`_Or`, `cyc` is `_Cycle` (min, max, overflow flag as stored by the
constructor), `lex` is `Lexem` (body absent when unbound), and `rule` is
`Rule` (with `hasCb` telling whether a reducer callback is bound). -/
inductive Expr where
  | tok (cls : List Nat)
  | ctrl (flg : Nat)
  | seq (children : List Expr)
  | alt (children : List Expr)
  | cyc (mn mx flg : Nat) (body : Expr)
  | lex (body : Option Expr)
  | rule (hasCb : Bool) (body : Option Expr)
deriving Repr

/-- The `_Cycle(at_least, link, total, limit)` constructor: the stored
overflow flag is `eOver` exactly when `total >= limit`. -/
def mkCycle (at_least total limit : Nat) (body : Expr) : Expr :=
  Expr.cyc at_least total (if total < limit then 0 else eOver) body

/-- The `Skip` control marker (`_Ctrl<eOk|eSkip>`). -/
def skipCtrl : Expr := Expr.ctrl (eOk ||| eSkipBit)

/-- The `Return` control marker (`_Ctrl<eOk|eRet>`). -/
def returnCtrl : Expr := Expr.ctrl (eOk ||| eRet)

/-- The `Null` control marker (`_Ctrl<eOk>`). -/
def nullCtrl : Expr := Expr.ctrl eOk

/-! ### The interpreter (`_parse` members) -/

/-- The loop of `_And::_parse` over the remaining children (already turned
into parse functions).  `stat`, `save` and `size` are the local variables of
the C++ loop; the status is cleared of `eSkip|eRet|eOk` at the end of every
iteration, as the `for` increment does. -/
def andLoop (fs : List (PState → Nat × PState)) (stat save size : Nat) (s : PState) :
    Nat × PState :=
  match fs with
  | [] => ((if stat &&& eTry ≠ 0 then eRet else 0) ||| eOk ||| andNot stat (eTry ||| eSkipBit), s)
  | f :: rest =>
    let r := f s
    let stat2 := stat ||| r.1
    if stat2 &&& (eOk ||| eError) = eOk then
      let s2 := if save ≠ 0 then { r.2 with cntxV := resizeV r.2.cntxV save } else r.2
      let save2 := if save ≠ 0 then 0 else save
      let save3 := if stat2 &&& eSkipBit ≠ 0 then s2.cntxV.length else save2
      andLoop rest (andNot stat2 (eSkipBit ||| eRet ||| eOk)) save3 size s2
    else
      ((if stat2 &&& (eEof ||| eOver) ≠ 0 then eError else 0) |||
         andNot stat2 (eTry ||| eSkipBit ||| eOk),
       eraseTo r.2 size)

/-- The return statement of `_Or::_parse` (`max`/`tmp` are C++ `int`s). -/
def finishOr (stat : Nat) (mx tmp : Int) : Nat :=
  andNot (if mx ≠ 0 ∨ tmp ≥ 0 then stat ||| eOk else andNot stat eOk) (e1st ||| eRet)

/-- The loop of `_Or::_parse` over the remaining alternatives.  `org` is the
starting cursor, `size` the entry size of the cursor stack; `mx`/`tmp` are the
best and latest advances.  A better alternative replaces the previous best
(erasing the range `[size, msize+1)`); a break on `eRet|e1st|eError` returns
at once; a rejected alternative is erased back to `msize`. -/
def orLoop (fs : List (PState → Nat × PState)) (stat : Nat) (mx tmp : Int)
    (org size : Nat) (s : PState) : Nat × PState :=
  match fs with
  | [] => (finishOr stat mx tmp, s)
  | f :: rest =>
    let msize := s.cntxV.length
    let s0 := if size < msize then { s with cntxV := s.cntxV ++ [org] } else s
    let r := f s0
    let stat2 := stat ||| r.1
    let tmp2 : Int := if stat2 &&& (eOk ||| eError) ≠ 0 then (back r.2 : Int) - (org : Int)
                      else tmp
    if stat2 &&& (eOk ||| eError) ≠ 0 ∧
        (tmp2 > mx ∨ (tmp2 > 0 ∧ stat2 &&& (eRet ||| e1st ||| eError) ≠ 0)) then
      let s2 := if size < msize then eraseRange r.2 size (msize + 1) else r.2
      if stat2 &&& (eRet ||| e1st ||| eError) ≠ 0 then
        (finishOr stat2 tmp2 tmp2, s2)
      else
        orLoop rest (andNot stat2 (eOk ||| eRet ||| eError)) tmp2 tmp2 org size s2
    else
      let s3 := if msize < r.2.cntxV.length then eraseTo r.2 msize else r.2
      orLoop rest (andNot stat2 (eOk ||| eRet ||| eError)) mx tmp2 org size s3

/-- The loop of `_Cycle::_parse`.  The C++ loop counts `i` upward to `max`;
here `fuel = max - i` decreases structurally while `i` still counts the
completed iterations for the `i < min` test.  The status is cleared of the
transient bits `e1st|eTry|eSkip|eRet|eOk` at the end of every iteration. -/
def cycLoop (f : PState → Nat × PState) (mn flg : Nat) :
    Nat → Nat → Nat → PState → Nat × PState
  | stat, _, 0, s => (stat ||| flg ||| eOk, s)
  | stat, i, fuel + 1, s =>
    let r := f s
    let stat2 := stat ||| r.1
    if stat2 &&& (eOk ||| eError) = eOk then
      cycLoop f mn flg (andNot stat2 (e1st ||| eTry ||| eSkipBit ||| eRet ||| eOk)) (i + 1) fuel r.2
    else
      (if i < mn then andNot stat2 eOk else stat2 ||| eOk, r.2)

/-- The interpreter: one arm per `_parse` member of the node classes. -/
def parse (inp : List Nat) : Expr → PState → Nat × PState
  | .tok cls, s =>
    let cc := if s.level ≠ 0 then zero_parse inp (back s) else back s
    if cls.contains (byteAt inp cc) then
      let s1 := if s.level ≠ 0 then
          { s with cntxV := s.cntxV ++ [cc], cntxU := stubPush s.cntxU cc (cc + 1) }
        else s
      (if byteAt inp (cc + 1) ≠ 0 then eOk else eOk ||| eEof,
       { s1 with cntxV := s1.cntxV ++ [cc + 1] })
    else (0, s)
  | .ctrl flg, s => (flg, s)
  | .seq cs, s => andLoop (cs.attach.map fun c => parse inp c.1) 0 0 s.cntxV.length s
  | .alt cs, s =>
    orLoop (cs.attach.map fun c => parse inp c.1) 0 0 (-1) (back s) s.cntxV.length s
  | .cyc mn mx flg body, s => cycLoop (parse inp body) mn flg 0 0 mx s
  | .lex none, s => (eError ||| eBadLexem, s)
  | .lex (some b), s =>
    if s.level = 0 then parse inp b s
    else
      let size := s.cntxV.length
      let org := zero_parse inp (back s)
      let r := parse inp b { s with cntxV := s.cntxV ++ [org], level := s.level - 1 }
      let s2 := { r.2 with level := r.2.level + 1 }
      if r.1 &&& eOk ≠ 0 ∧ 1 < s2.cntxV.length - size then
        (r.1, { s2 with
                cntxU := stubPush s2.cntxU org (back s2),
                cntxV := resizeV (s2.cntxV.set (size + 1) (back s2)) (size + 2) })
      else
        (r.1, { s2 with cntxV := resizeV s2.cntxV size })
  | .rule _ none, s => (eError ||| eBadRule, s)
  | .rule hasCb (some b), s =>
    if s.level = 0 then (eError ||| eBadRule, s)
    else
      let size := s.cntxV.length
      let savedU := s.cntxU
      let savedOff := s.off
      let r := parse inp b { s with cntxU := if hasCb then some [] else none,
                                    off := if hasCb then size else 0 }
      if r.1 &&& eOk ≠ 0 ∧ 1 < r.2.cntxV.length - size then
        (r.1, { r.2 with
                cntxV := resizeV (r.2.cntxV.set (size + 1) (back r.2)) (size + 2),
                cntxU := savedU.map (fun u => u ++ [(r.2.cntxV.getD size 0, back r.2)]),
                off := savedOff })
      else
        (r.1, { r.2 with cntxV := resizeV r.2.cntxV size, cntxU := savedU, off := savedOff })
termination_by e _ => sizeOf e
decreasing_by
  all_goals simp_wf
  all_goals try omega
  all_goals (have h := List.sizeOf_lt_of_mem c.2; omega)

/-! ### Entry points -/

/-- The initial context of `_Base::_analyze`: the input start pushed twice,
level 1; `frame` is `none` for the plain `_Base` run of `Analyze(root, text)`
and `some []` for a `_Parser<U>` run collecting semantic values. -/
def initState (frame : Option (List Span)) : PState :=
  { cntxV := [0, 0], level := 1, cntxU := frame, off := 0 }

/-- `_Base::_analyze`: push the text start twice and parse the root. -/
def analyzeRun (root : Expr) (inp : List Nat) (frame : Option (List Span)) : Nat × PState :=
  parse inp root (initState frame)

/-- `_Base::Get_tail`: skip whitespace from the final cursor, report the stop
position and whether a byte remains there. -/
def Get_tail (inp : List Nat) (s : PState) : Nat × Nat :=
  let ptr := zero_parse inp (back s)
  (if byteAt inp ptr ≠ 0 then eError ||| eRest else 0, ptr)

/-! ### List helper lemmas -/

theorem getLastD_append (v γ : List Nat) (d : Nat) :
    (v ++ γ).getLastD d = γ.getLastD (v.getLastD d) := by
  rcases List.eq_nil_or_concat γ with h | ⟨l, a, h⟩
  · simp [h]
  · subst h
    rw [List.concat_eq_append, ← List.append_assoc, List.getLastD_concat, List.getLastD_concat]

theorem take_len_add {v : List Nat} (x : List Nat) (k : Nat) :
    (v ++ x).take (v.length + k) = v ++ x.take k := by
  rw [List.take_append_eq_append_take]
  simp

theorem drop_len_add {v : List Nat} (x : List Nat) (k : Nat) :
    (v ++ x).drop (v.length + k) = x.drop k := by
  rw [List.drop_append_eq_append_drop]
  simp

theorem getD_len_add {v : List Nat} (x : List Nat) (k d : Nat) :
    (v ++ x).getD (v.length + k) d = x.getD k d := by
  simp [List.getD_eq_getElem?_getD, List.getElem?_append_right (Nat.le_add_right v.length k)]

theorem set_len_add {v : List Nat} (x : List Nat) (k a : Nat) :
    (v ++ x).set (v.length + k) a = v ++ x.set k a := by
  rw [List.set_append_right _ _ (Nat.le_add_right v.length k)]
  simp

/-! ### Status bit lemmas -/

theorem land_lor_right (x y m : Nat) : (x ||| y) &&& m = x &&& m ||| y &&& m :=
  Nat.and_distrib_right x y m

theorem andNot_lor (x y m : Nat) : andNot (x ||| y) m = andNot x m ||| andNot y m :=
  Nat.and_distrib_right x y _

theorem land_self_eq (m : Nat) : m &&& m = m := by
  apply Nat.eq_of_testBit_eq
  intro i
  simp [Nat.testBit_land]

theorem andNot_andNot (x m : Nat) : andNot (andNot x m) m = andNot x m := by
  unfold andNot
  rw [Nat.land_assoc, land_self_eq]

theorem andNot_land (x m k : Nat) : andNot x m &&& k = x &&& ((0xFFFFFFFF ^^^ m) &&& k) :=
  Nat.land_assoc x _ k

theorem land_sub {x m c : Nat} (h : x &&& m = c) (k : Nat) (hk : m &&& k = k) :
    x &&& k = c &&& k := by
  rw [← h, Nat.land_assoc, hk]

/-! ### zero_parse lemmas -/

theorem wsRun_le_length (l : List Nat) : wsRun l ≤ l.length := by
  induction l with
  | nil => simp [wsRun]
  | cons c r ih =>
    simp only [wsRun]
    split <;> simp <;> omega

theorem zero_parse_ge (inp : List Nat) (p : Nat) : p ≤ zero_parse inp p :=
  Nat.le_add_right p _

theorem zero_parse_le_length (inp : List Nat) (p : Nat) (h : p ≤ inp.length) :
    zero_parse inp p ≤ inp.length := by
  have := wsRun_le_length (inp.drop p)
  simp only [List.length_drop] at this
  unfold zero_parse
  omega

theorem byteAt_lt_length {inp : List Nat} {p : Nat} (h : byteAt inp p ≠ 0) :
    p < inp.length := by
  by_contra hc
  apply h
  have hp : inp.length ≤ p := by omega
  simp [byteAt, List.getD_eq_getElem?_getD, List.getElem?_eq_none hp]

theorem wsRun_isWs {l : List Nat} {j : Nat} (h : j < wsRun l) : isWs (l.getD j 0) = true := by
  induction l generalizing j with
  | nil => simp [wsRun] at h
  | cons c r ih =>
    simp only [wsRun] at h
    by_cases hc : isWs c = true
    · simp only [hc, if_true] at h
      cases j with
      | zero => simpa using hc
      | succ j => exact ih (by omega)
    · simp [hc] at h

theorem wsRun_stop (l : List Nat) : isWs (l.getD (wsRun l) 0) = false := by
  induction l with
  | nil => simp [wsRun, isWs]
  | cons c r ih =>
    simp only [wsRun]
    by_cases hc : isWs c = true
    · rw [if_pos hc, List.getD_cons_succ]
      exact ih
    · rw [if_neg hc, List.getD_cons_zero]
      exact Bool.not_eq_true _ ▸ (by simpa using hc)

theorem getD_drop (inp : List Nat) (p j : Nat) :
    (inp.drop p).getD j 0 = inp.getD (p + j) 0 := by
  simp [List.getD_eq_getElem?_getD, List.getElem?_drop]

theorem zero_parse_ws_before (inp : List Nat) (p q : Nat) (h1 : p ≤ q)
    (h2 : q < zero_parse inp p) : isWs (byteAt inp q) = true := by
  have hj : q - p < wsRun (inp.drop p) := by unfold zero_parse at h2; omega
  have := wsRun_isWs hj
  rwa [getD_drop, Nat.add_sub_cancel' h1] at this

theorem zero_parse_stop (inp : List Nat) (p : Nat) :
    isWs (byteAt inp (zero_parse inp p)) = false := by
  have := wsRun_stop (inp.drop p)
  rwa [getD_drop] at this

/-! ### Shape lemmas: one per `_parse` clause -/

theorem parse_tok (inp : List Nat) (cls : List Nat) (s : PState) :
    parse inp (.tok cls) s =
      (let cc := if s.level ≠ 0 then zero_parse inp (back s) else back s
       if cls.contains (byteAt inp cc) then
         let s1 := if s.level ≠ 0 then
             { s with cntxV := s.cntxV ++ [cc], cntxU := stubPush s.cntxU cc (cc + 1) }
           else s
         (if byteAt inp (cc + 1) ≠ 0 then eOk else eOk ||| eEof,
          { s1 with cntxV := s1.cntxV ++ [cc + 1] })
       else (0, s)) := by
  simp [parse]

theorem parse_ctrl (inp : List Nat) (flg : Nat) (s : PState) :
    parse inp (.ctrl flg) s = (flg, s) := by
  simp [parse]

theorem parse_seq (inp : List Nat) (cs : List Expr) (s : PState) :
    parse inp (.seq cs) s = andLoop (cs.map (parse inp)) 0 0 s.cntxV.length s := by
  simp [parse, List.attach_map_coe]

theorem parse_alt (inp : List Nat) (cs : List Expr) (s : PState) :
    parse inp (.alt cs) s =
      orLoop (cs.map (parse inp)) 0 0 (-1) (back s) s.cntxV.length s := by
  simp [parse, List.attach_map_coe]

theorem parse_cyc (inp : List Nat) (mn mx flg : Nat) (body : Expr) (s : PState) :
    parse inp (.cyc mn mx flg body) s = cycLoop (parse inp body) mn flg 0 0 mx s := by
  simp [parse]

theorem parse_lex_none (inp : List Nat) (s : PState) :
    parse inp (.lex none) s = (eError ||| eBadLexem, s) := by
  simp [parse]

theorem parse_lex_some (inp : List Nat) (b : Expr) (s : PState) :
    parse inp (.lex (some b)) s =
      (if s.level = 0 then parse inp b s
       else
         let size := s.cntxV.length
         let org := zero_parse inp (back s)
         let r := parse inp b { s with cntxV := s.cntxV ++ [org], level := s.level - 1 }
         let s2 := { r.2 with level := r.2.level + 1 }
         if r.1 &&& eOk ≠ 0 ∧ 1 < s2.cntxV.length - size then
           (r.1, { s2 with
                   cntxU := stubPush s2.cntxU org (back s2),
                   cntxV := resizeV (s2.cntxV.set (size + 1) (back s2)) (size + 2) })
         else
           (r.1, { s2 with cntxV := resizeV s2.cntxV size })) := by
  simp [parse]

theorem parse_rule_none (inp : List Nat) (hasCb : Bool) (s : PState) :
    parse inp (.rule hasCb none) s = (eError ||| eBadRule, s) := by
  simp [parse]

/-! ### Locality of the interpreter

Every `_parse` member reads the cursor stack only through `back()` and
through sizes saved relative to its own entry, and never branches on the
semantic frame.  Consequently the returned status and the entries appended to
the cursor stack depend only on the entry cursor and the mode level; the
cursor never moves backward; and a call that returns to its entry cursor
leaves the cursor stack untouched.  `Mono`, `Outcome`, `RelAt` and `Rel`
express this, proved below for every node by one induction. -/

/-- Monotonicity data of a run that appends `δ` starting from cursor `t`. -/
def Mono (γ : List Nat) (t : Nat) : Prop :=
  t ≤ γ.getLastD t ∧ (γ.getLastD t = t → γ = [])

/-- The observable outcome of one interpreter call entered with cursor stack
`v`, level `lvl` and offset `o`: its status, the appended entries `δ`, and
the preservation of level and offset. -/
def Outcome (r : Nat × PState) (st : Nat) (v δ : List Nat) (lvl o : Nat) : Prop :=
  r.1 = st ∧ r.2.cntxV = v ++ δ ∧ r.2.level = lvl ∧ r.2.off = o

/-- Locality of a parse function at level `lvl` and entry cursor `t`. -/
def RelAt (f : PState → Nat × PState) (lvl t st : Nat) (δ : List Nat) : Prop :=
  (∀ v U o, v ≠ [] → v.getLastD 0 = t → Outcome (f ⟨v, lvl, U, o⟩) st v δ lvl o) ∧
  Mono δ t

/-- A parse function is local when it has local outcome data at every level
and entry cursor. -/
def Rel (f : PState → Nat × PState) : Prop :=
  ∀ lvl t, ∃ st δ, RelAt f lvl t st δ

theorem Mono.nil (t : Nat) : Mono [] t := by
  constructor <;> simp [List.getLastD]

theorem Mono.append {γ δ : List Nat} {t : Nat} (hγ : Mono γ t)
    (hδ : Mono δ (γ.getLastD t)) : Mono (γ ++ δ) t := by
  obtain ⟨h1, h2⟩ := hγ
  obtain ⟨h3, h4⟩ := hδ
  constructor
  · rw [getLastD_append]
    omega
  · intro h
    rw [getLastD_append] at h
    have hγt : γ.getLastD t = t := by omega
    have hδn : δ = [] := h4 (by omega)
    simp [h2 hγt, hδn]

theorem PState.eta_of (p : PState) (X : List Nat) (L O : Nat)
    (h1 : p.cntxV = X) (h2 : p.level = L) (h3 : p.off = O) : p = ⟨X, L, p.cntxU, O⟩ := by
  cases p
  simp_all

theorem cycLoop_rel {f : PState → Nat × PState} (hf : Rel f) (lvl t mn flg : Nat) :
    ∀ (fuel stat i : Nat) (γ : List Nat), Mono γ t →
      ∃ st δ, Mono δ t ∧
        ∀ v U o, v ≠ [] → v.getLastD 0 = t →
          Outcome (cycLoop f mn flg stat i fuel ⟨v ++ γ, lvl, U, o⟩) st v δ lvl o := by
  intro fuel
  induction fuel with
  | zero =>
    intro stat i γ hγ
    exact ⟨stat ||| flg ||| eOk, γ, hγ, fun v U o hv hl => by
      simp [cycLoop, Outcome]⟩
  | succ fuel ih =>
    intro stat i γ hγ
    obtain ⟨stc, δc, hio, hmc⟩ := hf lvl (γ.getLastD t)
    by_cases hok : (stat ||| stc) &&& (eOk ||| eError) = eOk
    · obtain ⟨st, δ, hδ, hrec⟩ :=
        ih (andNot (stat ||| stc) (e1st ||| eTry ||| eSkipBit ||| eRet ||| eOk)) (i + 1)
          (γ ++ δc) (hγ.append hmc)
      refine ⟨st, δ, hδ, ?_⟩
      intro v U o hv hl
      have hvγ : v ++ γ ≠ [] := by simp [hv]
      have hlγ : (v ++ γ).getLastD 0 = γ.getLastD t := by rw [getLastD_append, hl]
      obtain ⟨h1, h2, h3, h4⟩ := hio (v ++ γ) U o hvγ hlγ
      have hst : (f ⟨v ++ γ, lvl, U, o⟩).2 =
          ⟨v ++ (γ ++ δc), lvl, (f ⟨v ++ γ, lvl, U, o⟩).2.cntxU, o⟩ :=
        PState.eta_of _ _ _ _ (by rw [h2, List.append_assoc]) h3 h4
      simp only [cycLoop, h1, hok, if_true, if_false, eq_self_iff_true]
      rw [hst]
      exact hrec v _ o hv hl
    · refine ⟨if i < mn then andNot (stat ||| stc) eOk else (stat ||| stc) ||| eOk,
        γ ++ δc, hγ.append hmc, ?_⟩
      intro v U o hv hl
      have hvγ : v ++ γ ≠ [] := by simp [hv]
      have hlγ : (v ++ γ).getLastD 0 = γ.getLastD t := by rw [getLastD_append, hl]
      obtain ⟨h1, h2, h3, h4⟩ := hio (v ++ γ) U o hvγ hlγ
      simp only [cycLoop, h1, hok, if_true, if_false, Outcome]
      refine ⟨trivial, ?_, h3, h4⟩
      rw [h2, List.append_assoc]

theorem resizeV_append {γ : List Nat} (v : List Nat) {k : Nat} (h : k ≤ γ.length) :
    resizeV (v ++ γ) (v.length + k) = v ++ γ.take k := by
  unfold resizeV
  rw [take_len_add]
  have h0 : v.length + k - (v ++ γ).length = 0 := by
    simp only [List.length_append]
    omega
  rw [h0]
  simp

theorem resizeV_self (v : List Nat) : resizeV v v.length = v := by
  unfold resizeV
  simp

theorem eraseTo_cntxV (s : PState) (low : Nat) : (eraseTo s low).cntxV = s.cntxV.take low := rfl

theorem eraseTo_level (s : PState) (low : Nat) : (eraseTo s low).level = s.level := rfl

theorem eraseTo_off (s : PState) (low : Nat) : (eraseTo s low).off = s.off := rfl

theorem eraseRange_cntxV (s : PState) (low hi : Nat) :
    (eraseRange s low hi).cntxV = s.cntxV.take low ++ s.cntxV.drop hi := rfl

theorem eraseRange_level (s : PState) (low hi : Nat) : (eraseRange s low hi).level = s.level := rfl

theorem eraseRange_off (s : PState) (low hi : Nat) : (eraseRange s low hi).off = s.off := rfl

theorem andLoop_rel {fs : List (PState → Nat × PState)} (hfs : ∀ f ∈ fs, Rel f)
    (lvl t : Nat) :
    ∀ (stat : Nat) (γ : List Nat) (sk : Option Nat),
      Mono γ t →
      (∀ k, sk = some k → k ≤ γ.length ∧ Mono (γ.take k) t) →
      ∃ st δ, Mono δ t ∧
        ∀ v U o, v ≠ [] → v.getLastD 0 = t →
          Outcome (andLoop fs stat (sk.elim 0 fun k => v.length + k) v.length
                    ⟨v ++ γ, lvl, U, o⟩) st v δ lvl o := by
  induction fs with
  | nil =>
    intro stat γ sk hγ _
    refine ⟨(if stat &&& eTry ≠ 0 then eRet else 0) ||| eOk ||| andNot stat (eTry ||| eSkipBit),
      γ, hγ, ?_⟩
    intro v U o hv hl
    simp [andLoop, Outcome]
  | cons f rest ih =>
    intro stat γ sk hγ hsk
    have hf : Rel f := hfs f (by simp)
    have hrest : ∀ g ∈ rest, Rel g := fun g hg => hfs g (by simp [hg])
    obtain ⟨stc, δc, hio, hmc⟩ := hf lvl (γ.getLastD t)
    by_cases hok : (stat ||| stc) &&& (eOk ||| eError) = eOk
    · cases sk with
      | none =>
        by_cases hskip : (stat ||| stc) &&& eSkipBit ≠ 0
        · obtain ⟨st, δ, hδ, hrec⟩ :=
            ih hrest (andNot (stat ||| stc) (eSkipBit ||| eRet ||| eOk)) (γ ++ δc)
              (some (γ ++ δc).length) (hγ.append hmc)
              (by
                intro k hk
                injection hk with hk
                subst hk
                exact ⟨le_rfl, by rw [List.take_length]; exact hγ.append hmc⟩)
          refine ⟨st, δ, hδ, ?_⟩
          intro v U o hv hl
          have hvγ : v ++ γ ≠ [] := by simp [hv]
          have hlγ : (v ++ γ).getLastD 0 = γ.getLastD t := by rw [getLastD_append, hl]
          obtain ⟨h1, h2, h3, h4⟩ := hio (v ++ γ) U o hvγ hlγ
          have hst : (f ⟨v ++ γ, lvl, U, o⟩).2 =
              ⟨v ++ (γ ++ δc), lvl, (f ⟨v ++ γ, lvl, U, o⟩).2.cntxU, o⟩ :=
            PState.eta_of _ _ _ _ (by rw [h2, List.append_assoc]) h3 h4
          have hlen : (f ⟨v ++ γ, lvl, U, o⟩).2.cntxV.length = v.length + (γ ++ δc).length := by
            rw [h2]
            simp
          simp only [andLoop, Option.elim, h1, ne_eq, not_true_eq_false, eq_self_iff_true,
            if_false, if_true, ite_self]
          rw [if_pos hok, if_pos hskip, hlen, hst]
          exact hrec v _ o hv hl
        · obtain ⟨st, δ, hδ, hrec⟩ :=
            ih hrest (andNot (stat ||| stc) (eSkipBit ||| eRet ||| eOk)) (γ ++ δc) none
              (hγ.append hmc) (by intro k hk; cases hk)
          have hskip0 : (stat ||| stc) &&& eSkipBit = 0 := by simpa using hskip
          refine ⟨st, δ, hδ, ?_⟩
          intro v U o hv hl
          have hvγ : v ++ γ ≠ [] := by simp [hv]
          have hlγ : (v ++ γ).getLastD 0 = γ.getLastD t := by rw [getLastD_append, hl]
          obtain ⟨h1, h2, h3, h4⟩ := hio (v ++ γ) U o hvγ hlγ
          have hst : (f ⟨v ++ γ, lvl, U, o⟩).2 =
              ⟨v ++ (γ ++ δc), lvl, (f ⟨v ++ γ, lvl, U, o⟩).2.cntxU, o⟩ :=
            PState.eta_of _ _ _ _ (by rw [h2, List.append_assoc]) h3 h4
          simp only [andLoop, Option.elim, h1, ne_eq, not_true_eq_false, eq_self_iff_true,
            if_false, if_true, ite_self]
          rw [if_pos hok, if_neg (not_not_intro hskip0), hst]
          exact hrec v _ o hv hl
      | some k =>
        obtain ⟨hkle, hkm⟩ := hsk k rfl
        by_cases hskip : (stat ||| stc) &&& eSkipBit ≠ 0
        · obtain ⟨st, δ, hδ, hrec⟩ :=
            ih hrest (andNot (stat ||| stc) (eSkipBit ||| eRet ||| eOk)) (γ.take k)
              (some (γ.take k).length) hkm
              (by
                intro k' hk'
                injection hk' with hk'
                subst hk'
                exact ⟨le_rfl, by rw [List.take_length]; exact hkm⟩)
          refine ⟨st, δ, hδ, ?_⟩
          intro v U o hv hl
          have hvne : v.length ≠ 0 := by simpa using hv
          have hsave : v.length + k ≠ 0 := by omega
          have hvγ : v ++ γ ≠ [] := by simp [hv]
          have hlγ : (v ++ γ).getLastD 0 = γ.getLastD t := by rw [getLastD_append, hl]
          obtain ⟨h1, h2, h3, h4⟩ := hio (v ++ γ) U o hvγ hlγ
          have hres : resizeV (f ⟨v ++ γ, lvl, U, o⟩).2.cntxV (v.length + k) =
              v ++ γ.take k := by
            rw [h2, List.append_assoc, resizeV_append v (by simp; omega),
              List.take_append_of_le_length hkle]
          have hst : ({ (f ⟨v ++ γ, lvl, U, o⟩).2 with
              cntxV := resizeV (f ⟨v ++ γ, lvl, U, o⟩).2.cntxV (v.length + k) } : PState) =
              ⟨v ++ γ.take k, lvl, (f ⟨v ++ γ, lvl, U, o⟩).2.cntxU, o⟩ :=
            PState.eta_of _ _ _ _ (by rw [hres]) h3 h4
          have hlenX : ({ (f ⟨v ++ γ, lvl, U, o⟩).2 with
              cntxV := resizeV (f ⟨v ++ γ, lvl, U, o⟩).2.cntxV (v.length + k) } :
                PState).cntxV.length = v.length + (γ.take k).length := by
            simp [hres]
          simp only [andLoop, Option.elim, h1]
          rw [if_pos hok, if_pos hsave, if_pos hsave, if_pos hskip, hlenX, hst]
          exact hrec v _ o hv hl
        · obtain ⟨st, δ, hδ, hrec⟩ :=
            ih hrest (andNot (stat ||| stc) (eSkipBit ||| eRet ||| eOk)) (γ.take k) none
              hkm (by intro k' hk'; cases hk')
          have hskip0 : (stat ||| stc) &&& eSkipBit = 0 := by simpa using hskip
          refine ⟨st, δ, hδ, ?_⟩
          intro v U o hv hl
          have hvne : v.length ≠ 0 := by simpa using hv
          have hsave : v.length + k ≠ 0 := by omega
          have hvγ : v ++ γ ≠ [] := by simp [hv]
          have hlγ : (v ++ γ).getLastD 0 = γ.getLastD t := by rw [getLastD_append, hl]
          obtain ⟨h1, h2, h3, h4⟩ := hio (v ++ γ) U o hvγ hlγ
          have hres : resizeV (f ⟨v ++ γ, lvl, U, o⟩).2.cntxV (v.length + k) =
              v ++ γ.take k := by
            rw [h2, List.append_assoc, resizeV_append v (by simp; omega),
              List.take_append_of_le_length hkle]
          have hst : ({ (f ⟨v ++ γ, lvl, U, o⟩).2 with
              cntxV := resizeV (f ⟨v ++ γ, lvl, U, o⟩).2.cntxV (v.length + k) } : PState) =
              ⟨v ++ γ.take k, lvl, (f ⟨v ++ γ, lvl, U, o⟩).2.cntxU, o⟩ :=
            PState.eta_of _ _ _ _ (by rw [hres]) h3 h4
          simp only [andLoop, Option.elim, h1]
          rw [if_pos hok, if_pos hsave, if_pos hsave, if_neg (not_not_intro hskip0), hst]
          exact hrec v _ o hv hl
    · refine ⟨(if (stat ||| stc) &&& (eEof ||| eOver) ≠ 0 then eError else 0) |||
        andNot (stat ||| stc) (eTry ||| eSkipBit ||| eOk), [], Mono.nil t, ?_⟩
      intro v U o hv hl
      have hvγ : v ++ γ ≠ [] := by simp [hv]
      have hlγ : (v ++ γ).getLastD 0 = γ.getLastD t := by rw [getLastD_append, hl]
      obtain ⟨h1, h2, h3, h4⟩ := hio (v ++ γ) U o hvγ hlγ
      simp only [andLoop, Option.elim, h1, hok, if_true, if_false, Outcome, eraseTo_level,
        eraseTo_off, eraseTo_cntxV]
      refine ⟨trivial, ?_, h3, h4⟩
      rw [h2, List.append_assoc, List.take_left]
      simp

theorem orLoop_step {f : PState → Nat × PState} {stc : Nat} {δc : List Nat} {lvl t : Nat}
    (hio : ∀ v U o, v ≠ [] → v.getLastD 0 = t → Outcome (f ⟨v, lvl, U, o⟩) stc v δc lvl o)
    (rest : List (PState → Nat × PState)) (stat : Nat) (mx tmp : Int) (γ : List Nat)
    (v : List Nat) (U : Option (List Span)) (o : Nat) (hv : v ≠ []) (hl : v.getLastD 0 = t) :
    ∃ U', orLoop (f :: rest) stat mx tmp t v.length ⟨v ++ γ, lvl, U, o⟩ =
      (if (stat ||| stc) &&& (eOk ||| eError) ≠ 0 then
        if ((δc.getLastD t : Int) - (t : Int)) > mx ∨
            (((δc.getLastD t : Int) - (t : Int)) > 0 ∧
              (stat ||| stc) &&& (eRet ||| e1st ||| eError) ≠ 0) then
          if (stat ||| stc) &&& (eRet ||| e1st ||| eError) ≠ 0 then
            (finishOr (stat ||| stc) ((δc.getLastD t : Int) - (t : Int))
              ((δc.getLastD t : Int) - (t : Int)), ⟨v ++ δc, lvl, U', o⟩)
          else
            orLoop rest (andNot (stat ||| stc) (eOk ||| eRet ||| eError))
              ((δc.getLastD t : Int) - (t : Int)) ((δc.getLastD t : Int) - (t : Int))
              t v.length ⟨v ++ δc, lvl, U', o⟩
        else
          orLoop rest (andNot (stat ||| stc) (eOk ||| eRet ||| eError)) mx
            ((δc.getLastD t : Int) - (t : Int)) t v.length ⟨v ++ γ, lvl, U', o⟩
      else
        orLoop rest (andNot (stat ||| stc) (eOk ||| eRet ||| eError)) mx tmp
          t v.length ⟨v ++ γ, lvl, U', o⟩) := by
  rcases List.eq_nil_or_concat γ with hγe | ⟨γ0, glast, hγe⟩
  · -- empty γ: the starting cursor is already on top, no restart push
    subst hγe
    obtain ⟨h1, h2, h3, h4⟩ := hio v U o hv hl
    have hback : back (f ⟨v, lvl, U, o⟩).2 = δc.getLastD t := by
      rw [back, h2, getLastD_append, hl]
    by_cases hok : (stat ||| stc) &&& (eOk ||| eError) ≠ 0
    · by_cases hacc : ((δc.getLastD t : Int) - (t : Int)) > mx ∨
          (((δc.getLastD t : Int) - (t : Int)) > 0 ∧
            (stat ||| stc) &&& (eRet ||| e1st ||| eError) ≠ 0)
      · by_cases hbrk : (stat ||| stc) &&& (eRet ||| e1st ||| eError) ≠ 0
        · -- accept and break out of the loop
          refine ⟨(f ⟨v, lvl, U, o⟩).2.cntxU, ?_⟩
          have hst : (f ⟨v, lvl, U, o⟩).2 =
              ⟨v ++ δc, lvl, (f ⟨v, lvl, U, o⟩).2.cntxU, o⟩ :=
            PState.eta_of _ _ _ _ h2 h3 h4
          simp only [ne_eq] at hok hacc hbrk
          simp only [orLoop, List.append_nil, lt_self_iff_false, if_false]
          rw [h1, hback]
          simp only [ne_eq, hok, not_false_eq_true, if_true, true_and]
          simp only [hacc, if_true]
          simp only [hbrk, not_false_eq_true, if_true]
          exact congrArg _ hst
        · -- accept and continue with the new best
          refine ⟨(f ⟨v, lvl, U, o⟩).2.cntxU, ?_⟩
          have hst : (f ⟨v, lvl, U, o⟩).2 =
              ⟨v ++ δc, lvl, (f ⟨v, lvl, U, o⟩).2.cntxU, o⟩ :=
            PState.eta_of _ _ _ _ h2 h3 h4
          simp only [ne_eq] at hok hacc hbrk
          simp only [orLoop, List.append_nil, lt_self_iff_false, if_false]
          rw [h1, hback]
          simp only [ne_eq, hok, not_false_eq_true, if_true, true_and]
          simp only [hacc, if_true]
          simp only [hbrk, not_true_eq_false, if_false]
          exact congrArg _ hst
      · -- matched but rejected: erase back to msize
        by_cases hδ : δc = []
        · refine ⟨(f ⟨v, lvl, U, o⟩).2.cntxU, ?_⟩
          have hst : (f ⟨v, lvl, U, o⟩).2 =
              ⟨v, lvl, (f ⟨v, lvl, U, o⟩).2.cntxU, o⟩ :=
            PState.eta_of _ _ _ _ (by rw [h2, hδ, List.append_nil]) h3 h4
          simp only [ne_eq] at hok hacc
          simp only [orLoop, List.append_nil, lt_self_iff_false, if_false]
          rw [h1, hback]
          simp only [ne_eq, hok, not_false_eq_true, if_true, true_and]
          simp only [hacc, if_false]
          simp only [h2, hδ, List.append_nil, lt_self_iff_false, if_false]
          exact congrArg _ hst
        · refine ⟨(eraseTo (f ⟨v, lvl, U, o⟩).2 v.length).cntxU, ?_⟩
          have hlen : v.length < (f ⟨v, lvl, U, o⟩).2.cntxV.length := by
            rw [h2]
            simp only [List.length_append]
            have : 0 < δc.length := List.length_pos.mpr hδ
            omega
          have hers : eraseTo (f ⟨v, lvl, U, o⟩).2 v.length =
              ⟨v, lvl, (eraseTo (f ⟨v, lvl, U, o⟩).2 v.length).cntxU, o⟩ := by
            refine PState.eta_of _ _ _ _ ?_ ?_ ?_
            · rw [eraseTo_cntxV, h2, List.take_left]
            · rw [eraseTo_level, h3]
            · rw [eraseTo_off, h4]
          simp only [ne_eq] at hok hacc
          simp only [orLoop, List.append_nil, lt_self_iff_false, if_false]
          rw [h1, hback]
          simp only [ne_eq, hok, not_false_eq_true, if_true, true_and]
          simp only [hacc, if_false]
          simp only [hlen, if_true]
          exact congrArg _ hers
    · -- no match at all: erase whatever the attempt pushed
      by_cases hδ : δc = []
      · refine ⟨(f ⟨v, lvl, U, o⟩).2.cntxU, ?_⟩
        have hst : (f ⟨v, lvl, U, o⟩).2 =
            ⟨v, lvl, (f ⟨v, lvl, U, o⟩).2.cntxU, o⟩ :=
          PState.eta_of _ _ _ _ (by rw [h2, hδ, List.append_nil]) h3 h4
        simp only [ne_eq] at hok
        simp only [orLoop, List.append_nil, lt_self_iff_false, if_false]
        rw [h1, hback]
        simp only [ne_eq, hok, not_true_eq_false, if_false, false_and]
        simp only [h2, hδ, List.append_nil, lt_self_iff_false, if_false]
        exact congrArg _ hst
      · refine ⟨(eraseTo (f ⟨v, lvl, U, o⟩).2 v.length).cntxU, ?_⟩
        have hlen : v.length < (f ⟨v, lvl, U, o⟩).2.cntxV.length := by
          rw [h2]
          simp only [List.length_append]
          have : 0 < δc.length := List.length_pos.mpr hδ
          omega
        have hers : eraseTo (f ⟨v, lvl, U, o⟩).2 v.length =
            ⟨v, lvl, (eraseTo (f ⟨v, lvl, U, o⟩).2 v.length).cntxU, o⟩ := by
          refine PState.eta_of _ _ _ _ ?_ ?_ ?_
          · rw [eraseTo_cntxV, h2, List.take_left]
          · rw [eraseTo_level, h3]
          · rw [eraseTo_off, h4]
        simp only [ne_eq] at hok
        simp only [orLoop, List.append_nil, lt_self_iff_false, if_false]
        rw [h1, hback]
        simp only [ne_eq, hok, not_true_eq_false, if_false, false_and]
        simp only [hlen, if_true]
        exact congrArg _ hers
  · -- non-empty γ: the starting cursor t is pushed again before the attempt
    rw [List.concat_eq_append] at hγe
    subst hγe
    have hvt : (v ++ (γ0 ++ [glast])) ++ [t] ≠ [] := by simp
    have hlt : ((v ++ (γ0 ++ [glast])) ++ [t]).getLastD 0 = t := List.getLastD_concat _ _ _
    obtain ⟨h1, h2, h3, h4⟩ := hio ((v ++ (γ0 ++ [glast])) ++ [t]) U o hvt hlt
    have hmsize : v.length < (v ++ (γ0 ++ [glast])).length := by
      simp only [List.length_append, List.length_singleton]
      omega
    have hback : back (f ⟨(v ++ (γ0 ++ [glast])) ++ [t], lvl, U, o⟩).2 = δc.getLastD t := by
      rw [back, h2, getLastD_append, hlt]
    have hrlen : (v ++ (γ0 ++ [glast])).length <
        (f ⟨(v ++ (γ0 ++ [glast])) ++ [t], lvl, U, o⟩).2.cntxV.length := by
      rw [h2]
      simp only [List.length_append, List.length_singleton]
      omega
    have hers2 : eraseRange (f ⟨(v ++ (γ0 ++ [glast])) ++ [t], lvl, U, o⟩).2 v.length
        ((v ++ (γ0 ++ [glast])).length + 1) =
        ⟨v ++ δc, lvl,
          (eraseRange (f ⟨(v ++ (γ0 ++ [glast])) ++ [t], lvl, U, o⟩).2 v.length
            ((v ++ (γ0 ++ [glast])).length + 1)).cntxU, o⟩ := by
      refine PState.eta_of _ _ _ _ ?_ ?_ ?_
      · rw [eraseRange_cntxV, h2]
        have hd : (((v ++ (γ0 ++ [glast])) ++ [t]) ++ δc).drop
            ((v ++ (γ0 ++ [glast])).length + 1) = δc := by
          have hln : (v ++ (γ0 ++ [glast])).length + 1 =
              ((v ++ (γ0 ++ [glast])) ++ [t]).length := by
            simp
            omega
          rw [hln, List.drop_left]
        have ht : (((v ++ (γ0 ++ [glast])) ++ [t]) ++ δc).take v.length = v := by
          rw [List.append_assoc, List.append_assoc,
            List.take_append_of_le_length le_rfl, List.take_length]
        rw [hd, ht]
      · rw [eraseRange_level, h3]
      · rw [eraseRange_off, h4]
    have hto : eraseTo (f ⟨(v ++ (γ0 ++ [glast])) ++ [t], lvl, U, o⟩).2
        (v ++ (γ0 ++ [glast])).length =
        ⟨v ++ (γ0 ++ [glast]), lvl,
          (eraseTo (f ⟨(v ++ (γ0 ++ [glast])) ++ [t], lvl, U, o⟩).2
            (v ++ (γ0 ++ [glast])).length).cntxU, o⟩ := by
      refine PState.eta_of _ _ _ _ ?_ ?_ ?_
      · rw [eraseTo_cntxV, h2, List.append_assoc (v ++ (γ0 ++ [glast]))]
        exact List.take_left _ _
      · rw [eraseTo_level, h3]
      · rw [eraseTo_off, h4]
    by_cases hok : (stat ||| stc) &&& (eOk ||| eError) ≠ 0
    · by_cases hacc : ((δc.getLastD t : Int) - (t : Int)) > mx ∨
          (((δc.getLastD t : Int) - (t : Int)) > 0 ∧
            (stat ||| stc) &&& (eRet ||| e1st ||| eError) ≠ 0)
      · by_cases hbrk : (stat ||| stc) &&& (eRet ||| e1st ||| eError) ≠ 0
        · refine ⟨(eraseRange (f ⟨(v ++ (γ0 ++ [glast])) ++ [t], lvl, U, o⟩).2 v.length
            ((v ++ (γ0 ++ [glast])).length + 1)).cntxU, ?_⟩
          simp only [ne_eq] at hok hacc hbrk
          simp only [orLoop, hmsize, if_true]
          rw [h1, hback]
          simp only [ne_eq, hok, not_false_eq_true, if_true, true_and]
          simp only [hacc, if_true]
          simp only [hbrk, not_false_eq_true, if_true]
          exact congrArg _ hers2
        · refine ⟨(eraseRange (f ⟨(v ++ (γ0 ++ [glast])) ++ [t], lvl, U, o⟩).2 v.length
            ((v ++ (γ0 ++ [glast])).length + 1)).cntxU, ?_⟩
          simp only [ne_eq] at hok hacc hbrk
          simp only [orLoop, hmsize, if_true]
          rw [h1, hback]
          simp only [ne_eq, hok, not_false_eq_true, if_true, true_and]
          simp only [hacc, if_true]
          simp only [hbrk, not_true_eq_false, if_false]
          exact congrArg _ hers2
      · refine ⟨(eraseTo (f ⟨(v ++ (γ0 ++ [glast])) ++ [t], lvl, U, o⟩).2
            (v ++ (γ0 ++ [glast])).length).cntxU, ?_⟩
        simp only [ne_eq] at hok hacc
        simp only [orLoop, hmsize, if_true]
        rw [h1, hback]
        simp only [ne_eq, hok, not_false_eq_true, if_true, true_and]
        simp only [hacc, if_false]
        simp only [hrlen, if_true]
        exact congrArg _ hto
    · refine ⟨(eraseTo (f ⟨(v ++ (γ0 ++ [glast])) ++ [t], lvl, U, o⟩).2
            (v ++ (γ0 ++ [glast])).length).cntxU, ?_⟩
      simp only [ne_eq] at hok
      simp only [orLoop, hmsize, if_true]
      rw [h1, hback]
      simp only [ne_eq, hok, not_true_eq_false, if_false, false_and]
      simp only [hrlen, if_true]
      exact congrArg _ hto

theorem orLoop_rel {fs : List (PState → Nat × PState)} (hfs : ∀ f ∈ fs, Rel f)
    (lvl t : Nat) :
    ∀ (stat : Nat) (mx tmp : Int) (γ : List Nat),
      Mono γ t →
      ∃ st δ, Mono δ t ∧
        ∀ v U o, v ≠ [] → v.getLastD 0 = t →
          Outcome (orLoop fs stat mx tmp t v.length ⟨v ++ γ, lvl, U, o⟩) st v δ lvl o := by
  induction fs with
  | nil =>
    intro stat mx tmp γ hγ
    exact ⟨finishOr stat mx tmp, γ, hγ, fun v U o hv hl => by simp [orLoop, Outcome]⟩
  | cons f rest ih =>
    intro stat mx tmp γ hγ
    have hf : Rel f := hfs f (by simp)
    have hrest : ∀ g ∈ rest, Rel g := fun g hg => hfs g (by simp [hg])
    obtain ⟨stc, δc, hio, hmc⟩ := hf lvl t
    by_cases hok : (stat ||| stc) &&& (eOk ||| eError) ≠ 0
    · by_cases hacc : ((δc.getLastD t : Int) - (t : Int)) > mx ∨
          (((δc.getLastD t : Int) - (t : Int)) > 0 ∧
            (stat ||| stc) &&& (eRet ||| e1st ||| eError) ≠ 0)
      · by_cases hbrk : (stat ||| stc) &&& (eRet ||| e1st ||| eError) ≠ 0
        · refine ⟨finishOr (stat ||| stc) ((δc.getLastD t : Int) - (t : Int))
            ((δc.getLastD t : Int) - (t : Int)), δc, hmc, ?_⟩
          intro v U o hv hl
          obtain ⟨U', hstep⟩ := orLoop_step hio rest stat mx tmp γ v U o hv hl
          rw [hstep, if_pos hok, if_pos hacc, if_pos hbrk]
          exact ⟨rfl, rfl, rfl, rfl⟩
        · obtain ⟨st, δ, hδ, hrec⟩ := ih hrest
            (andNot (stat ||| stc) (eOk ||| eRet ||| eError))
            ((δc.getLastD t : Int) - (t : Int)) ((δc.getLastD t : Int) - (t : Int)) δc hmc
          refine ⟨st, δ, hδ, ?_⟩
          intro v U o hv hl
          obtain ⟨U', hstep⟩ := orLoop_step hio rest stat mx tmp γ v U o hv hl
          rw [hstep, if_pos hok, if_pos hacc, if_neg hbrk]
          exact hrec v U' o hv hl
      · obtain ⟨st, δ, hδ, hrec⟩ := ih hrest
          (andNot (stat ||| stc) (eOk ||| eRet ||| eError)) mx
          ((δc.getLastD t : Int) - (t : Int)) γ hγ
        refine ⟨st, δ, hδ, ?_⟩
        intro v U o hv hl
        obtain ⟨U', hstep⟩ := orLoop_step hio rest stat mx tmp γ v U o hv hl
        rw [hstep, if_pos hok, if_neg hacc]
        exact hrec v U' o hv hl
    · obtain ⟨st, δ, hδ, hrec⟩ := ih hrest
        (andNot (stat ||| stc) (eOk ||| eRet ||| eError)) mx tmp γ hγ
      refine ⟨st, δ, hδ, ?_⟩
      intro v U o hv hl
      obtain ⟨U', hstep⟩ := orLoop_step hio rest stat mx tmp γ v U o hv hl
      rw [hstep, if_neg hok]
      exact hrec v U' o hv hl

theorem parse_rule_some (inp : List Nat) (hasCb : Bool) (b : Expr) (s : PState) :
    parse inp (.rule hasCb (some b)) s =
      (if s.level = 0 then (eError ||| eBadRule, s)
       else
         let size := s.cntxV.length
         let savedU := s.cntxU
         let savedOff := s.off
         let r := parse inp b { s with cntxU := if hasCb then some [] else none,
                                       off := if hasCb then size else 0 }
         if r.1 &&& eOk ≠ 0 ∧ 1 < r.2.cntxV.length - size then
           (r.1, { r.2 with
                   cntxV := resizeV (r.2.cntxV.set (size + 1) (back r.2)) (size + 2),
                   cntxU := savedU.map (fun u => u ++ [(r.2.cntxV.getD size 0, back r.2)]),
                   off := savedOff })
         else
           (r.1, { r.2 with
                   cntxV := resizeV r.2.cntxV size,
                   cntxU := savedU,
                   off := savedOff })) := by
  simp [parse]


theorem resizeV_prefix (v y : List Nat) : resizeV (v ++ y) v.length = v := by
  unfold resizeV
  rw [List.take_left]
  simp

theorem parse_rel (inp : List Nat) (e : Expr) : Rel (parse inp e) := by
  suffices h : ∀ n (ex : Expr), sizeOf ex < n → Rel (parse inp ex) from
    h (sizeOf e + 1) e (by omega)
  intro n
  induction n with
  | zero => intro ex hex; omega
  | succ n ih =>
    intro ex hex
    cases ex with
    | tok cls =>
      intro lvl t
      by_cases hlvl : lvl = 0
      · subst hlvl
        by_cases hm : cls.contains (byteAt inp t) = true
        · refine ⟨if byteAt inp (t + 1) ≠ 0 then eOk else eOk ||| eEof, [t + 1], ?_, ?_⟩
          · intro v U o hv hl
            rw [parse_tok]
            simp only [ne_eq, eq_self_iff_true, not_true_eq_false, if_false]
            rw [show back ⟨v, 0, U, o⟩ = t from hl, if_pos hm]
            exact ⟨by rfl, rfl, rfl, rfl⟩
          · refine ⟨?_, ?_⟩
            · rw [show ([t + 1] : List Nat).getLastD t = t + 1 from rfl]
              omega
            · intro h
              rw [show ([t + 1] : List Nat).getLastD t = t + 1 from rfl] at h
              omega
        · refine ⟨0, [], ?_, Mono.nil t⟩
          intro v U o hv hl
          rw [parse_tok]
          simp only [ne_eq, eq_self_iff_true, not_true_eq_false, if_false]
          rw [show back ⟨v, 0, U, o⟩ = t from hl, if_neg hm]
          exact ⟨rfl, by simp, rfl, rfl⟩
      · have hzp := zero_parse_ge inp t
        by_cases hm : cls.contains (byteAt inp (zero_parse inp t)) = true
        · refine ⟨if byteAt inp (zero_parse inp t + 1) ≠ 0 then eOk else eOk ||| eEof,
            [zero_parse inp t, zero_parse inp t + 1], ?_, ?_⟩
          · intro v U o hv hl
            rw [parse_tok]
            simp only [ne_eq, hlvl, not_false_eq_true, if_true]
            rw [show back ⟨v, lvl, U, o⟩ = t from hl, if_pos hm]
            refine ⟨by rfl, ?_, rfl, rfl⟩
            simp
          · refine ⟨?_, ?_⟩
            · rw [show ([zero_parse inp t, zero_parse inp t + 1] : List Nat).getLastD t =
                zero_parse inp t + 1 from rfl]
              omega
            · intro h
              rw [show ([zero_parse inp t, zero_parse inp t + 1] : List Nat).getLastD t =
                zero_parse inp t + 1 from rfl] at h
              omega
        · refine ⟨0, [], ?_, Mono.nil t⟩
          intro v U o hv hl
          rw [parse_tok]
          simp only [ne_eq, hlvl, not_false_eq_true, if_true]
          rw [show back ⟨v, lvl, U, o⟩ = t from hl, if_neg hm]
          exact ⟨rfl, by simp, rfl, rfl⟩
    | ctrl flg =>
      intro lvl t
      refine ⟨flg, [], ?_, Mono.nil t⟩
      intro v U o hv hl
      rw [parse_ctrl]
      exact ⟨rfl, by simp, rfl, rfl⟩
    | seq cs =>
      have hall : ∀ g ∈ cs.map (parse inp), Rel g := by
        intro g hg
        rw [List.mem_map] at hg
        obtain ⟨c, hc, rfl⟩ := hg
        have hsz := List.sizeOf_lt_of_mem hc
        have hsz2 : sizeOf c < n := by
          simp only [Expr.seq.sizeOf_spec] at hex
          omega
        exact ih c hsz2
      intro lvl t
      obtain ⟨st, δ, hδ, hio⟩ :=
        andLoop_rel hall lvl t 0 [] none (Mono.nil t) (by intro k hk; cases hk)
      refine ⟨st, δ, ?_, hδ⟩
      intro v U o hv hl
      rw [parse_seq]
      have := hio v U o hv hl
      simpa [Option.elim] using this
    | alt cs =>
      have hall : ∀ g ∈ cs.map (parse inp), Rel g := by
        intro g hg
        rw [List.mem_map] at hg
        obtain ⟨c, hc, rfl⟩ := hg
        have hsz := List.sizeOf_lt_of_mem hc
        have hsz2 : sizeOf c < n := by
          simp only [Expr.alt.sizeOf_spec] at hex
          omega
        exact ih c hsz2
      intro lvl t
      obtain ⟨st, δ, hδ, hio⟩ := orLoop_rel hall lvl t 0 0 (-1) [] (Mono.nil t)
      refine ⟨st, δ, ?_, hδ⟩
      intro v U o hv hl
      rw [parse_alt]
      rw [show back ⟨v, lvl, U, o⟩ = t from hl]
      simpa using hio v U o hv hl
    | cyc mn mx flg body =>
      have hb : Rel (parse inp body) := by
        refine ih body ?_
        simp only [Expr.cyc.sizeOf_spec] at hex
        omega
      intro lvl t
      obtain ⟨st, δ, hδ, hio⟩ := cycLoop_rel hb lvl t mn flg mx 0 0 [] (Mono.nil t)
      refine ⟨st, δ, ?_, hδ⟩
      intro v U o hv hl
      rw [parse_cyc]
      simpa using hio v U o hv hl
    | lex body =>
      cases body with
      | none =>
        intro lvl t
        refine ⟨eError ||| eBadLexem, [], ?_, Mono.nil t⟩
        intro v U o hv hl
        rw [parse_lex_none]
        exact ⟨rfl, by simp, rfl, rfl⟩
      | some b =>
        have hb : Rel (parse inp b) := by
          refine ih b ?_
          simp only [Expr.lex.sizeOf_spec, Option.some.sizeOf_spec] at hex
          omega
        intro lvl t
        by_cases hlvl : lvl = 0
        · subst hlvl
          obtain ⟨st, δ, hio, hm⟩ := hb 0 t
          refine ⟨st, δ, ?_, hm⟩
          intro v U o hv hl
          rw [parse_lex_some]
          rw [if_pos (show (⟨v, 0, U, o⟩ : PState).level = 0 from rfl)]
          exact hio v U o hv hl
        · obtain ⟨stb, δb, hiob, hmb⟩ := hb (lvl - 1) (zero_parse inp t)
          by_cases hcoll : stb &&& eOk ≠ 0 ∧ 0 < δb.length
          · refine ⟨stb, [zero_parse inp t, δb.getLastD (zero_parse inp t)], ?_, ?_⟩
            · intro v U o hv hl
              have hvo : v ++ [zero_parse inp t] ≠ [] := by simp
              have hlo : (v ++ [zero_parse inp t]).getLastD 0 = zero_parse inp t :=
                List.getLastD_concat _ _ _
              obtain ⟨h1, h2, h3, h4⟩ :=
                hiob (v ++ [zero_parse inp t]) U o hvo hlo
              obtain ⟨d0, drest, hdb⟩ := List.exists_cons_of_ne_nil
                (List.length_pos.mp hcoll.2)
              have hlen : ((parse inp b
                  ⟨v ++ [zero_parse inp t], lvl - 1, U, o⟩).2.cntxV).length
                  - v.length = 1 + δb.length := by
                rw [h2]
                simp only [List.length_append, List.length_singleton]
                omega
              have hset : ((parse inp b
                  ⟨v ++ [zero_parse inp t], lvl - 1, U, o⟩).2.cntxV).set (v.length + 1)
                    (δb.getLastD (zero_parse inp t)) =
                  v ++ [zero_parse inp t] ++
                    (δb.set 0 (δb.getLastD (zero_parse inp t))) := by
                rw [h2, List.append_assoc, set_len_add]
                rw [hdb]
                simp
              have hres : resizeV (v ++ [zero_parse inp t] ++
                    (δb.set 0 (δb.getLastD (zero_parse inp t)))) (v.length + 2) =
                  v ++ [zero_parse inp t, δb.getLastD (zero_parse inp t)] := by
                rw [List.append_assoc, resizeV_append v (by rw [hdb]; simp)]
                congr 1
                rw [hdb]
                simp
              rw [parse_lex_some]
              rw [if_neg (show ¬((⟨v, lvl, U, o⟩ : PState).level = 0) from hlvl)]
              rw [show back ⟨v, lvl, U, o⟩ = t from hl]
              simp only [ne_eq]
              rw [h1]
              rw [if_pos ?hcnd]
              case hcnd =>
                refine ⟨hcoll.1, ?_⟩
                have hc2 := hcoll.2
                have h5 : ({ (parse inp b ⟨v ++ [zero_parse inp t], lvl - 1, U, o⟩).2 with
                    level := (parse inp b
                      ⟨v ++ [zero_parse inp t], lvl - 1, U, o⟩).2.level + 1 } :
                    PState).cntxV.length - v.length = 1 + δb.length := hlen
                omega
              have hbk2 : back ({ (parse inp b ⟨v ++ [zero_parse inp t], lvl - 1, U, o⟩).2
                  with level := (parse inp b
                    ⟨v ++ [zero_parse inp t], lvl - 1, U, o⟩).2.level + 1 } : PState) =
                  δb.getLastD (zero_parse inp t) := by
                rw [back]
                show ((parse inp b
                    ⟨v ++ [zero_parse inp t], lvl - 1, U, o⟩).2.cntxV).getLastD 0 =
                  δb.getLastD (zero_parse inp t)
                rw [h2, List.append_assoc, getLastD_append, getLastD_append]
                rw [show ([zero_parse inp t] : List Nat).getLastD (v.getLastD 0) =
                  zero_parse inp t from rfl]
              refine ⟨rfl, ?_, ?_, ?_⟩
              · show resizeV
                    (((parse inp b ⟨v ++ [zero_parse inp t], lvl - 1, U, o⟩).2.cntxV).set
                      (v.length + 1)
                      (back ({ (parse inp b ⟨v ++ [zero_parse inp t], lvl - 1, U, o⟩).2
                        with level := (parse inp b
                          ⟨v ++ [zero_parse inp t], lvl - 1, U, o⟩).2.level + 1 } : PState)))
                    (v.length + 2) =
                  v ++ [zero_parse inp t, δb.getLastD (zero_parse inp t)]
                rw [hbk2, hset, hres]
              · show (parse inp b ⟨v ++ [zero_parse inp t], lvl - 1, U, o⟩).2.level + 1 = lvl
                rw [h3]
                omega
              · show (parse inp b ⟨v ++ [zero_parse inp t], lvl - 1, U, o⟩).2.off = o
                exact h4
            · refine ⟨?_, ?_⟩
              · rw [show ([zero_parse inp t, δb.getLastD (zero_parse inp t)] :
                    List Nat).getLastD t = δb.getLastD (zero_parse inp t) from rfl]
                have h5 := hmb.1
                have h6 := zero_parse_ge inp t
                omega
              · intro h
                exfalso
                rw [show ([zero_parse inp t, δb.getLastD (zero_parse inp t)] :
                    List Nat).getLastD t = δb.getLastD (zero_parse inp t) from rfl] at h
                have h5 := hmb.1
                have h6 := zero_parse_ge inp t
                have h7 : δb.getLastD (zero_parse inp t) = zero_parse inp t := by omega
                have h8 := hmb.2 h7
                rw [h8] at hcoll
                simp at hcoll
          · refine ⟨stb, [], ?_, Mono.nil t⟩
            intro v U o hv hl
            have hvo : v ++ [zero_parse inp t] ≠ [] := by simp
            have hlo : (v ++ [zero_parse inp t]).getLastD 0 = zero_parse inp t :=
              List.getLastD_concat _ _ _
            obtain ⟨h1, h2, h3, h4⟩ := hiob (v ++ [zero_parse inp t]) U o hvo hlo
            have hlen : ((parse inp b
                ⟨v ++ [zero_parse inp t], lvl - 1, U, o⟩).2.cntxV).length
                - v.length = 1 + δb.length := by
              rw [h2]
              simp only [List.length_append, List.length_singleton]
              omega
            rw [parse_lex_some]
            rw [if_neg (show ¬((⟨v, lvl, U, o⟩ : PState).level = 0) from hlvl)]
            rw [show back ⟨v, lvl, U, o⟩ = t from hl]
            simp only [ne_eq]
            rw [h1]
            rw [if_neg ?hcnd]
            case hcnd =>
              intro hcon
              apply hcoll
              refine ⟨hcon.1, ?_⟩
              have h5 : ({ (parse inp b ⟨v ++ [zero_parse inp t], lvl - 1, U, o⟩).2 with
                  level := (parse inp b
                    ⟨v ++ [zero_parse inp t], lvl - 1, U, o⟩).2.level + 1 } :
                  PState).cntxV.length - v.length = 1 + δb.length := hlen
              have h6 := hcon.2
              omega
            refine ⟨rfl, ?_, ?_, ?_⟩
            · show resizeV
                  ((parse inp b ⟨v ++ [zero_parse inp t], lvl - 1, U, o⟩).2.cntxV)
                  v.length = v ++ []
              rw [h2, List.append_assoc, resizeV_prefix]
              simp
            · show (parse inp b ⟨v ++ [zero_parse inp t], lvl - 1, U, o⟩).2.level + 1 = lvl
              rw [h3]
              omega
            · show (parse inp b ⟨v ++ [zero_parse inp t], lvl - 1, U, o⟩).2.off = o
              exact h4
    | rule hasCb body =>
      cases body with
      | none =>
        intro lvl t
        refine ⟨eError ||| eBadRule, [], ?_, Mono.nil t⟩
        intro v U o hv hl
        rw [parse_rule_none]
        exact ⟨rfl, by simp, rfl, rfl⟩
      | some b =>
        have hb : Rel (parse inp b) := by
          refine ih b ?_
          simp only [Expr.rule.sizeOf_spec, Option.some.sizeOf_spec] at hex
          omega
        intro lvl t
        by_cases hlvl : lvl = 0
        · subst hlvl
          refine ⟨eError ||| eBadRule, [], ?_, Mono.nil t⟩
          intro v U o hv hl
          rw [parse_rule_some]
          rw [if_pos (show (⟨v, 0, U, o⟩ : PState).level = 0 from rfl)]
          exact ⟨rfl, by simp, rfl, rfl⟩
        · obtain ⟨stb, δb, hiob, hmb⟩ := hb lvl t
          by_cases hcoll : stb &&& eOk ≠ 0 ∧ 1 < δb.length
          · refine ⟨stb, [δb.getD 0 0, δb.getLastD t], ?_, ?_⟩
            · intro v U o hv hl
              obtain ⟨h1, h2, h3, h4⟩ := hiob v
                (if hasCb then some [] else none) (if hasCb then v.length else 0) hv hl
              obtain ⟨d0, drest0, hdb0⟩ := List.exists_cons_of_ne_nil
                (List.length_pos.mp (by omega : 0 < δb.length))
              obtain ⟨d1, drest1, hdb1⟩ : ∃ d1 drest1, drest0 = d1 :: drest1 := by
                rcases drest0 with _ | ⟨d1, drest1⟩
                · exfalso
                  rw [hdb0] at hcoll
                  simp at hcoll
                · exact ⟨d1, drest1, rfl⟩
              have hlen : ((parse inp b ⟨v, lvl, if hasCb then some [] else none,
                  if hasCb then v.length else 0⟩).2.cntxV).length - v.length
                  = δb.length := by
                rw [h2]
                simp only [List.length_append]
                omega
              have hset : ((parse inp b ⟨v, lvl, if hasCb then some [] else none,
                  if hasCb then v.length else 0⟩).2.cntxV).set (v.length + 1)
                    (δb.getLastD t) = v ++ δb.set 1 (δb.getLastD t) := by
                rw [h2, set_len_add]
              have hres : resizeV (v ++ δb.set 1 (δb.getLastD t)) (v.length + 2) =
                  v ++ [δb.getD 0 0, δb.getLastD t] := by
                rw [resizeV_append v (by rw [hdb0, hdb1]; simp)]
                congr 1
                rw [hdb0, hdb1]
                simp
              have hgd : ((parse inp b ⟨v, lvl, if hasCb then some [] else none,
                  if hasCb then v.length else 0⟩).2.cntxV).getD v.length 0
                  = δb.getD 0 0 := by
                rw [h2, show v.length = v.length + 0 by omega, getD_len_add]
              have hbk : back (parse inp b ⟨v, lvl, if hasCb then some [] else none,
                  if hasCb then v.length else 0⟩).2 = δb.getLastD t := by
                rw [back, h2, getLastD_append, hl]
              rw [parse_rule_some]
              rw [if_neg (show ¬((⟨v, lvl, U, o⟩ : PState).level = 0) from hlvl)]
              simp only [ne_eq]
              rw [h1]
              rw [if_pos ?hcnd]
              case hcnd =>
                refine ⟨hcoll.1, ?_⟩
                have := hlen
                simp only [PState.cntxV] at this ⊢
                omega
              rw [hbk, hset, hres, hgd]
              exact ⟨rfl, rfl, h3, rfl⟩
            · refine ⟨?_, ?_⟩
              · rw [show ([δb.getD 0 0, δb.getLastD t] : List Nat).getLastD t =
                    δb.getLastD t from rfl]
                exact hmb.1
              · intro h
                exfalso
                rw [show ([δb.getD 0 0, δb.getLastD t] : List Nat).getLastD t =
                    δb.getLastD t from rfl] at h
                have h8 := hmb.2 h
                rw [h8] at hcoll
                simp at hcoll
          · refine ⟨stb, [], ?_, Mono.nil t⟩
            intro v U o hv hl
            obtain ⟨h1, h2, h3, h4⟩ := hiob v
              (if hasCb then some [] else none) (if hasCb then v.length else 0) hv hl
            have hlen : ((parse inp b ⟨v, lvl, if hasCb then some [] else none,
                if hasCb then v.length else 0⟩).2.cntxV).length - v.length
                = δb.length := by
              rw [h2]
              simp only [List.length_append]
              omega
            rw [parse_rule_some]
            rw [if_neg (show ¬((⟨v, lvl, U, o⟩ : PState).level = 0) from hlvl)]
            simp only [ne_eq]
            rw [h1]
            rw [if_neg ?hcnd]
            case hcnd =>
              intro hcon
              apply hcoll
              refine ⟨hcon.1, ?_⟩
              have := hcon.2
              simp only [PState.cntxV] at this
              omega
            refine ⟨rfl, ?_, h3, rfl⟩
            simp only [PState.cntxV]
            rw [h2, resizeV_prefix]
            simp


/-! ### Canonical runs

By locality, the behavior of a node is determined by the entry cursor and the
level; `canon` runs a node on a bare one-entry stack with no semantic frame,
and `parse_canon` transports the outcome to every other context. -/

def canon (inp : List Nat) (e : Expr) (lvl t : Nat) : Nat × PState :=
  parse inp e ⟨[t], lvl, none, 0⟩

/-- Canonical status of a node at level `lvl` from entry cursor `t`. -/
def canonSt (inp : List Nat) (e : Expr) (lvl t : Nat) : Nat := (canon inp e lvl t).1

/-- Canonical cursor entries appended by a node. -/
def canonD (inp : List Nat) (e : Expr) (lvl t : Nat) : List Nat :=
  (canon inp e lvl t).2.cntxV.drop 1

/-- Canonical final cursor of a node. -/
def canonTop (inp : List Nat) (e : Expr) (lvl t : Nat) : Nat :=
  (canonD inp e lvl t).getLastD t

theorem parse_canon (inp : List Nat) (e : Expr) (lvl t : Nat) (v : List Nat)
    (U : Option (List Span)) (o : Nat) (hv : v ≠ []) (hl : v.getLastD 0 = t) :
    Outcome (parse inp e ⟨v, lvl, U, o⟩) (canonSt inp e lvl t) v (canonD inp e lvl t)
      lvl o := by
  obtain ⟨st, δ, hio, hm⟩ := parse_rel inp e lvl t
  obtain ⟨b1, b2, b3, b4⟩ := hio [t] none 0 (by simp) rfl
  have hst : canonSt inp e lvl t = st := by
    rw [canonSt, canon, b1]
  have hδ : canonD inp e lvl t = δ := by
    rw [canonD, canon, b2]
    simp
  rw [hst, hδ]
  exact hio v U o hv hl

theorem canon_mono (inp : List Nat) (e : Expr) (lvl t : Nat) :
    Mono (canonD inp e lvl t) t := by
  obtain ⟨st, δ, hio, hm⟩ := parse_rel inp e lvl t
  obtain ⟨b1, b2, b3, b4⟩ := hio [t] none 0 (by simp) rfl
  have hδ : canonD inp e lvl t = δ := by
    rw [canonD, canon, b2]
    simp
  rw [hδ]
  exact hm

theorem canonTop_ge (inp : List Nat) (e : Expr) (lvl t : Nat) :
    t ≤ canonTop inp e lvl t := (canon_mono inp e lvl t).1

theorem canonTop_eq_nil (inp : List Nat) (e : Expr) (lvl t : Nat)
    (h : canonTop inp e lvl t = t) : canonD inp e lvl t = [] :=
  (canon_mono inp e lvl t).2 h

/-! ### Small status-bit kit -/

theorem lor_land_left {x : Nat} (y m : Nat) (hx : x &&& m = 0) :
    (x ||| y) &&& m = y &&& m := by
  rw [land_lor_right, hx, Nat.zero_or]

theorem land_eOk_of_lor (x : Nat) : (x ||| eOk) &&& eOk = eOk := by
  rw [land_lor_right]
  have h1 : x &&& eOk = x % 2 := Nat.and_one_is_mod x
  have h2 : (eOk : Nat) &&& eOk = 1 := by decide
  rw [h1, h2]
  rcases Nat.mod_two_eq_zero_or_one x with h | h <;> rw [h] <;> decide

theorem finishOr_ok (stat : Nat) (mx tmp : Int) (h : mx ≠ 0 ∨ tmp ≥ 0) :
    finishOr stat mx tmp &&& eOk ≠ 0 := by
  rw [finishOr, if_pos h, andNot_land]
  have hm : (0xFFFFFFFF ^^^ (e1st ||| eRet)) &&& eOk = eOk := by decide
  rw [hm, land_eOk_of_lor]
  decide

theorem okErr_split {st : Nat} (h : st &&& (eOk ||| eError) = eOk) :
    st &&& eOk = eOk ∧ st &&& eError = 0 := by
  constructor
  · have := land_sub h eOk (by decide)
    rwa [show (eOk : Nat) &&& eOk = eOk by decide] at this
  · have := land_sub h eError (by decide)
    rwa [show (eOk : Nat) &&& eError = 0 by decide] at this

theorem okErr_join {st : Nat} (h1 : st &&& eOk ≠ 0) (h2 : st &&& eError = 0) :
    st &&& (eOk ||| eError) = eOk := by
  have ha : st &&& (eOk ||| eError) = st &&& eOk ||| st &&& eError := by
    rw [Nat.land_comm st (eOk ||| eError), land_lor_right,
      Nat.land_comm eOk st, Nat.land_comm eError st]
  have hb : st &&& eOk = st % 2 := Nat.and_one_is_mod st
  have hc : st % 2 = 1 := by
    rcases Nat.mod_two_eq_zero_or_one st with h | h
    · rw [hb, h] at h1
      simp at h1
    · exact h
  rw [ha, h2, hb, hc]
  decide

theorem land_mod_two (st : Nat) : st &&& eOk = st % 2 := Nat.and_one_is_mod st

theorem land_eOk_ne_iff (st : Nat) : st &&& eOk ≠ 0 ↔ st % 2 = 1 := by
  rw [land_mod_two]
  rcases Nat.mod_two_eq_zero_or_one st with h | h <;> rw [h] <;> simp

theorem lor_eq_zero_split {x y : Nat} (h : x ||| y = 0) : x = 0 ∧ y = 0 := by
  constructor
  · apply Nat.eq_of_testBit_eq
    intro i
    have := congrArg (fun z => z.testBit i) h
    simp only [Nat.testBit_lor] at this
    simp only [Nat.zero_testBit]
    cases hx : x.testBit i
    · rfl
    · rw [hx] at this
      simpa using this
  · apply Nat.eq_of_testBit_eq
    intro i
    have := congrArg (fun z => z.testBit i) h
    simp only [Nat.testBit_lor] at this
    simp only [Nat.zero_testBit]
    cases hy : y.testBit i
    · rfl
    · rw [hy] at this
      simp at this


/-! ## Claims -/

/-- C8: a syntactic named production with an absent body, or one evaluated at
mode level 0, returns `Error|BadRule` immediately with the whole state (and
in particular the cursor) untouched, never invoking the body; a lexical named
production with an absent body likewise returns `Error|BadLexem` with the
state untouched. -/
theorem claim_C8 (inp : List Nat) (hasCb : Bool) (b : Option Expr) (s : PState) :
    parse inp (.rule hasCb none) s = (eError ||| eBadRule, s) ∧
    (s.level = 0 → parse inp (.rule hasCb b) s = (eError ||| eBadRule, s)) ∧
    parse inp (.lex none) s = (eError ||| eBadLexem, s) := by
  refine ⟨parse_rule_none inp hasCb s, ?_, parse_lex_none inp s⟩
  intro hlvl
  cases b with
  | none => exact parse_rule_none inp hasCb s
  | some bb =>
    rw [parse_rule_some, if_pos hlvl]

theorem claim_C8_witness :
    parse [97] (.rule true (some (.tok [97]))) ⟨[0, 0], 0, none, 0⟩ =
      (eError ||| eBadRule, ⟨[0, 0], 0, none, 0⟩) :=
  (claim_C8 [97] true (some (.tok [97])) ⟨[0, 0], 0, none, 0⟩).2.1 rfl

/-- C9 counterexample: with input `"a "` (a letter followed by a blank) and
the final cursor at 1, the blank at position 1 was never consumed by the
grammar, yet `Get_tail` silently skips over it: it returns status 0 with the
`Rest` bit clear and sets the remainder pointer to 2, one past the
unconsumed blank — not to the first unconsumed byte. -/
theorem claim_C9_cex :
    back ⟨[0, 1], 1, none, 0⟩ < ([97, 32] : List Nat).length ∧
    Get_tail [97, 32] ⟨[0, 1], 1, none, 0⟩ = (0, 2) ∧
    (Get_tail [97, 32] ⟨[0, 1], 1, none, 0⟩).1 &&& eRest = 0 := by
  refine ⟨by decide, by decide, by decide⟩

/-- C9 (amended): `Get_tail` first applies the whitespace skipper to the
final cursor.  The remainder pointer is the first non-whitespace position at
or after the final cursor (every byte strictly between them is whitespace),
and the returned status contains `Rest` exactly when the byte at that pointer
is not the NUL sentinel; in particular when the grammar consumed the whole
input the status is 0 with the pointer at the input's end.  Trailing
whitespace is thus skipped before the "input remains" test, so the pointer
can land past unconsumed whitespace bytes. -/
theorem claim_C9 (inp : List Nat) (s : PState) :
    (Get_tail inp s).2 = zero_parse inp (back s) ∧
    back s ≤ (Get_tail inp s).2 ∧
    (∀ q, back s ≤ q → q < (Get_tail inp s).2 → isWs (byteAt inp q) = true) ∧
    isWs (byteAt inp (Get_tail inp s).2) = false ∧
    ((Get_tail inp s).1 &&& eRest ≠ 0 ↔ byteAt inp (Get_tail inp s).2 ≠ 0) ∧
    (back s = inp.length → Get_tail inp s = (0, inp.length)) := by
  have h2 : (Get_tail inp s).2 = zero_parse inp (back s) := by
    unfold Get_tail
    by_cases h : byteAt inp (zero_parse inp (back s)) ≠ 0 <;> simp [h]
  refine ⟨h2, ?_, ?_, ?_, ?_, ?_⟩
  · rw [h2]; exact zero_parse_ge inp (back s)
  · intro q hq1 hq2
    rw [h2] at hq2
    exact zero_parse_ws_before inp (back s) q hq1 hq2
  · rw [h2]; exact zero_parse_stop inp (back s)
  · have h1 : (Get_tail inp s).1 =
        if byteAt inp (zero_parse inp (back s)) ≠ 0 then eError ||| eRest else 0 := rfl
    rw [h1, h2]
    by_cases h : byteAt inp (zero_parse inp (back s)) = 0
    · rw [if_neg (by simpa using h), h]
      decide
    · rw [if_pos h]
      simp only [ne_eq, h, not_false_eq_true, iff_true]
      decide
  · intro hlen
    have hz : zero_parse inp (back s) = inp.length := by
      have := zero_parse_le_length inp (back s) (le_of_eq hlen)
      have := zero_parse_ge inp (back s)
      omega
    have hb : byteAt inp inp.length = 0 := by
      simp [byteAt, List.getD_eq_getElem?_getD, List.getElem?_eq_none (le_refl inp.length)]
    unfold Get_tail
    simp [hb, hz]

theorem claim_C9_witness :
    isWs (byteAt [97, 32] 1) = true ∧
    Get_tail [97, 32] ⟨[0, 2], 1, none, 0⟩ = (0, 2) :=
  ⟨(claim_C9 [97, 32] ⟨[0, 1], 1, none, 0⟩).2.2.1 1 (by decide) (by decide),
   (claim_C9 [97, 32] ⟨[0, 2], 1, none, 0⟩).2.2.2.2.2 (by decide)⟩


/-- C3: a terminal at mode level ≥ 1 first skips whitespace from the current
cursor; it then tests the byte at the skipped position against its byte
class.  On a match it pushes the matched span as a stub onto the semantic
frame, pushes the skipped position and the position one byte past it onto the
cursor stack (advancing the cursor by exactly one byte), and returns `Ok`,
with the informational `Eof` bit set exactly when the byte after the match is
the NUL sentinel.  On a non-match it returns 0 with the state untouched.  At
level 0 the semantic frame is never changed. -/
theorem claim_C3 (inp cls : List Nat) (s : PState) (u : List Span)
    (hlvl : s.level ≠ 0) (hu : s.cntxU = some u) :
    (cls.contains (byteAt inp (zero_parse inp (back s))) = true →
      parse inp (.tok cls) s =
        (if byteAt inp (zero_parse inp (back s) + 1) = 0 then eOk ||| eEof else eOk,
         ⟨s.cntxV ++ [zero_parse inp (back s), zero_parse inp (back s) + 1], s.level,
          some (u ++ [(zero_parse inp (back s), zero_parse inp (back s) + 1)]), s.off⟩)) ∧
    (cls.contains (byteAt inp (zero_parse inp (back s))) = false →
      parse inp (.tok cls) s = (0, s)) ∧
    (∀ s2 : PState, s2.level = 0 → (parse inp (.tok cls) s2).2.cntxU = s2.cntxU) := by
  obtain ⟨sv, slvl, sU, soff⟩ := s
  simp only at hlvl hu
  subst hu
  refine ⟨?_, ?_, ?_⟩
  · intro hm
    rw [parse_tok]
    simp only [ne_eq, hlvl, not_false_eq_true, if_true]
    rw [if_pos hm]
    have hst : (if byteAt inp (zero_parse inp (back ⟨sv, slvl, some u, soff⟩) + 1) ≠ 0
          then eOk else eOk ||| eEof)
        = (if byteAt inp (zero_parse inp (back ⟨sv, slvl, some u, soff⟩) + 1) = 0
          then eOk ||| eEof else eOk) := by
      by_cases hb : byteAt inp (zero_parse inp (back ⟨sv, slvl, some u, soff⟩) + 1) = 0
      · rw [if_neg (not_not_intro hb), if_pos hb]
      · rw [if_pos hb, if_neg hb]
    rw [hst]
    simp [stubPush]
  · intro hm
    rw [parse_tok]
    simp only [ne_eq, hlvl, not_false_eq_true, if_true]
    rw [if_neg (by simp only [hm]; exact Bool.false_ne_true)]
  · intro s2 h0
    rw [parse_tok]
    simp only [ne_eq, h0, not_true_eq_false, if_false]
    by_cases hm : cls.contains (byteAt inp (back s2)) = true
    · rw [if_pos hm]
    · rw [if_neg hm]

theorem claim_C3_witness :
    parse [97] (Expr.tok [97]) (initState (some [])) =
      (eOk ||| eEof, ⟨[0, 0, 0, 1], 1, some [(0, 1)], 0⟩) := by
  have h := (claim_C3 [97] [97] (initState (some [])) [] (by decide) rfl).1 (by decide)
  rw [h]
  rfl

/-- C2 exhibit: the semantic stack is NOT truncated back to its entry size
when a sequence child fails.  Running the sequence `Token("a") Token("c")` on
input `"ab"` from the initial parser context (empty semantic frame, cursor
stack `[0, 0]`, frame offset 0): the first terminal matches and records the
stub span `(0, 1)`, the second terminal fails, and `_And::_parse` rewinds via
`_erase(size)` with `size = 2`.  The cursor stack is correctly restored to
`[0, 0]`, but `_erase` truncates the semantic frame to `(low - off) / 2 = 1`
entries, so the stub `(0, 1)` of the rejected attempt survives on the
semantic stack even though the frame was empty at entry. -/
theorem claim_C2_bug :
    (parse [97, 98] (.seq [.tok [97], .tok [99]]) (initState (some []))).1 = 0 ∧
    (parse [97, 98] (.seq [.tok [97], .tok [99]]) (initState (some []))).2.cntxV
      = [0, 0] ∧
    (initState (some [])).cntxU = some [] ∧
    (parse [97, 98] (.seq [.tok [97], .tok [99]]) (initState (some []))).2.cntxU
      = some [(0, 1)] := by
  refine ⟨?_, ?_, rfl, ?_⟩ <;>
    simp [parse_seq, andLoop, parse_tok, initState, back, zero_parse, wsRun, byteAt,
      isWs, stubPush, eraseTo, andNot, eOk, eError, eTry, eSkipBit, eEof, eOver, eRet]

/-- C6 exhibit: `_And::_parse` does not return early when a child's status
carries the `Ret` marker.  In the sequence `Return() Token("b")` on input
`"a"`, the `Return` child yields `Ok|Ret`, yet the loop continues: the `for`
increment clears `Ret` from the accumulated status, the second child is
evaluated, fails on the byte `a`, and the whole sequence returns status 0 —
neither `Ret` nor `Ok` — instead of returning `Ret|Ok` immediately. -/
theorem claim_C6_bug :
    (parse [97] (.seq [returnCtrl, .tok [98]]) (initState none)).1 = 0 ∧
    (parse [97] (.seq [returnCtrl, .tok [98]]) (initState none)).2 = initState none := by
  constructor <;>
    simp [parse_seq, andLoop, parse_ctrl, parse_tok, returnCtrl, initState, back,
      zero_parse, wsRun, byteAt, isWs, eraseTo, andNot]
  all_goals decide


/-- In `_Or::_parse`, an `Ok` child is never lost: if the final-return
condition already holds on entry (`max` non-zero or the latest advance
non-negative) or some remaining alternative succeeds canonically, the loop
returns a status containing `Ok`, whatever the advances are. -/
theorem orLoop_ok (inp : List Nat) (lvl t : Nat) :
    ∀ (cs : List Expr) (stat : Nat) (mx tmp : Int) (γ : List Nat), Mono γ t → 0 ≤ mx →
    ((mx ≠ 0 ∨ tmp ≥ 0) ∨ ∃ c ∈ cs, canonSt inp c lvl t &&& eOk ≠ 0) →
    ∀ v U o, v ≠ [] → v.getLastD 0 = t →
      (orLoop (cs.map (parse inp)) stat mx tmp t v.length ⟨v ++ γ, lvl, U, o⟩).1 &&&
        eOk ≠ 0 := by
  intro cs
  induction cs with
  | nil =>
    intro stat mx tmp γ hγ hmx hyp v U o hv hl
    simp only [List.map_nil, orLoop]
    refine finishOr_ok stat mx tmp ?_
    rcases hyp with h | ⟨c, hc, _⟩
    · exact h
    · cases hc
  | cons c cs ih =>
    intro stat mx tmp γ hγ hmx hyp v U o hv hl
    have hio : ∀ v U o, v ≠ [] → v.getLastD 0 = t →
        Outcome (parse inp c ⟨v, lvl, U, o⟩) (canonSt inp c lvl t) v
          (canonD inp c lvl t) lvl o :=
      fun v U o hv hl => parse_canon inp c lvl t v U o hv hl
    have ha : (0 : Int) ≤ ((canonD inp c lvl t).getLastD t : Int) - (t : Int) := by
      have := canonTop_ge inp c lvl t
      unfold canonTop at this
      omega
    obtain ⟨U', heq⟩ := orLoop_step hio (cs.map (parse inp)) stat mx tmp γ v U o hv hl
    simp only [List.map_cons]
    rw [heq]
    by_cases hok : (stat ||| canonSt inp c lvl t) &&& (eOk ||| eError) ≠ 0
    · by_cases hacc : (((canonD inp c lvl t).getLastD t : Int) - (t : Int)) > mx ∨
          ((((canonD inp c lvl t).getLastD t : Int) - (t : Int)) > 0 ∧
            (stat ||| canonSt inp c lvl t) &&& (eRet ||| e1st ||| eError) ≠ 0)
      · by_cases hbrk : (stat ||| canonSt inp c lvl t) &&& (eRet ||| e1st ||| eError) ≠ 0
        · rw [if_pos hok, if_pos hacc, if_pos hbrk]
          exact finishOr_ok _ _ _ (Or.inr ha)
        · rw [if_pos hok, if_pos hacc, if_neg hbrk]
          exact ih _ _ _ (canonD inp c lvl t) (canon_mono inp c lvl t) ha
            (Or.inl (Or.inr ha)) v U' o hv hl
      · rw [if_pos hok, if_neg hacc]
        exact ih _ mx _ γ hγ hmx (Or.inl (Or.inr ha)) v U' o hv hl
    · rw [if_neg hok]
      refine ih _ mx tmp γ hγ hmx ?_ v U' o hv hl
      have hz : (stat ||| canonSt inp c lvl t) &&& (eOk ||| eError) = 0 := by
        by_contra hc
        exact hok hc
      have hcz : canonSt inp c lvl t &&& eOk = 0 := by
        rw [land_lor_right] at hz
        have h2 := (lor_eq_zero_split hz).2
        have := land_sub h2 eOk (by decide)
        simpa using this
      rcases hyp with h | ⟨c', hc', hCk⟩
      · exact Or.inl h
      · rcases List.mem_cons.mp hc' with rfl | hmem
        · exact absurd hcz hCk
        · exact Or.inr ⟨c', hmem, hCk⟩

/-- C7: a zero-advance success still counts.  If some child of an alternation
succeeds canonically (its status from the alternation's entry cursor contains
`Ok`), the alternation's status contains `Ok`, even when every succeeding
child advanced the cursor by zero: the loop tracks the latest advance `tmp`
separately and the final return sets `Ok` whenever it is non-negative. -/
theorem claim_C7 (inp : List Nat) (cs : List Expr) (s : PState) (hv : s.cntxV ≠ [])
    (h : ∃ c ∈ cs, canonSt inp c s.level (back s) &&& eOk ≠ 0) :
    (parse inp (.alt cs) s).1 &&& eOk ≠ 0 := by
  obtain ⟨sv, slvl, sU, soff⟩ := s
  rw [parse_alt]
  have hrun := orLoop_ok inp slvl (sv.getLastD 0) cs 0 0 (-1) [] (Mono.nil _)
    (le_refl 0) (Or.inr h) sv sU soff hv rfl
  simpa only [List.append_nil] using hrun

theorem claim_C7_witness :
    (parse [] (.alt [nullCtrl]) (initState none)).1 &&& eOk ≠ 0 := by
  apply claim_C7
  · decide
  · refine ⟨nullCtrl, by simp, ?_⟩
    simp only [canonSt, canon, nullCtrl, parse_ctrl]
    decide


/-! ### Iterating the body of a repetition -/

/-- The state after `k` evaluations of the body from `s`. -/
def iterN (f : PState → Nat × PState) (s : PState) : Nat → PState
  | 0 => s
  | k + 1 => (f (iterN f s k)).2

/-- The status of the `k`-th (0-based) body evaluation from `s`. -/
def stepSt (f : PState → Nat × PState) (s : PState) (k : Nat) : Nat :=
  (f (iterN f s k)).1

/-- The transient control bits cleared by the `for` increment of
`_Cycle::_parse` before each new iteration. -/
def cycClear : Nat := e1st ||| eTry ||| eSkipBit ||| eRet ||| eOk

/-- The status accumulated by the repetition loop over `k` iterations:
each body status is ORed in and then the transient bits are cleared. -/
def cAcc (f : PState → Nat × PState) : Nat → PState → Nat → Nat
  | stat, _, 0 => stat
  | stat, s, k + 1 => cAcc f (andNot (stat ||| (f s).1) cycClear) (f s).2 k

theorem iterN_succ_shift (f : PState → Nat × PState) (s : PState) (k : Nat) :
    iterN f s (k + 1) = iterN f (f s).2 k := by
  induction k with
  | zero => rfl
  | succ k ih => exact congrArg (fun z => (f z).2) ih

theorem stepSt_shift (f : PState → Nat × PState) (s : PState) (k : Nat) :
    stepSt f s (k + 1) = stepSt f (f s).2 k := by
  rw [stepSt, stepSt, iterN_succ_shift]

/-- `_Cycle::_parse` when the first `fuel` body evaluations all succeed:
the loop runs them all, accumulates their statuses with the transient bits
cleared, and returns with the constructed overflow flag and `Ok` ORed in. -/
theorem cycLoop_run (f : PState → Nat × PState) (mn flg : Nat) :
    ∀ (fuel : Nat) (s : PState) (stat i : Nat),
      stat &&& (eOk ||| eError) = 0 →
      (∀ k, k < fuel → stepSt f s k &&& (eOk ||| eError) = eOk) →
      cycLoop f mn flg stat i fuel s =
        (cAcc f stat s fuel ||| flg ||| eOk, iterN f s fuel) := by
  intro fuel
  induction fuel with
  | zero =>
    intro s stat i hc hall
    simp [cycLoop, cAcc, iterN]
  | succ fuel ih =>
    intro s stat i hc hall
    have h0 : (f s).1 &&& (eOk ||| eError) = eOk := by
      have := hall 0 (Nat.succ_pos fuel)
      simpa [stepSt, iterN] using this
    have hcond : (stat ||| (f s).1) &&& (eOk ||| eError) = eOk := by
      rw [land_lor_right, hc, Nat.zero_or]
      exact h0
    have hc2 : andNot (stat ||| (f s).1) cycClear &&& (eOk ||| eError) = 0 := by
      rw [andNot_land,
        show (0xFFFFFFFF ^^^ cycClear) &&& (eOk ||| eError) = eError by decide,
        land_lor_right]
      have h1 := land_sub hc eError (by decide)
      have h2 := land_sub h0 eError (by decide)
      rw [h1, h2]
      decide
    have hall2 : ∀ k, k < fuel → stepSt f (f s).2 k &&& (eOk ||| eError) = eOk := by
      intro k hk
      have := hall (k + 1) (by omega)
      rwa [stepSt_shift] at this
    simp only [cycLoop]
    rw [show (e1st ||| eTry ||| eSkipBit ||| eRet ||| eOk : Nat) = cycClear from rfl]
    rw [if_pos hcond, ih (f s).2 _ (i + 1) hc2 hall2, iterN_succ_shift]
    rfl

/-- `_Cycle::_parse` when the body fails at the `k`-th iteration after `k`
successes: the loop stops there, keeps everything consumed so far, and
returns `Ok` exactly when at least `min` iterations had completed. -/
theorem cycLoop_fail (f : PState → Nat × PState) (mn flg : Nat) :
    ∀ (fuel k : Nat) (s : PState) (stat i : Nat),
      k < fuel →
      stat &&& (eOk ||| eError) = 0 →
      (∀ j, j < k → stepSt f s j &&& (eOk ||| eError) = eOk) →
      stepSt f s k &&& (eOk ||| eError) ≠ eOk →
      cycLoop f mn flg stat i fuel s =
        (if i + k < mn then andNot (cAcc f stat s k ||| stepSt f s k) eOk
         else (cAcc f stat s k ||| stepSt f s k) ||| eOk,
         iterN f s (k + 1)) := by
  intro fuel
  induction fuel with
  | zero =>
    intro k s stat i hk
    omega
  | succ fuel ih =>
    intro k s stat i hk hc hprev hfail
    cases k with
    | zero =>
      have h0 : (f s).1 &&& (eOk ||| eError) ≠ eOk := by
        simpa [stepSt, iterN] using hfail
      have hcond : (stat ||| (f s).1) &&& (eOk ||| eError) ≠ eOk := by
        rw [land_lor_right, hc, Nat.zero_or]
        exact h0
      simp only [cycLoop]
      rw [if_neg hcond]
      simp [cAcc, stepSt, iterN]
    | succ k =>
      have h0 : (f s).1 &&& (eOk ||| eError) = eOk := by
        have := hprev 0 (Nat.succ_pos k)
        simpa [stepSt, iterN] using this
      have hcond : (stat ||| (f s).1) &&& (eOk ||| eError) = eOk := by
        rw [land_lor_right, hc, Nat.zero_or]
        exact h0
      have hc2 : andNot (stat ||| (f s).1) cycClear &&& (eOk ||| eError) = 0 := by
        rw [andNot_land,
          show (0xFFFFFFFF ^^^ cycClear) &&& (eOk ||| eError) = eError by decide,
          land_lor_right]
        have h1 := land_sub hc eError (by decide)
        have h2 := land_sub h0 eError (by decide)
        rw [h1, h2]
        decide
      have hprev2 : ∀ j, j < k → stepSt f (f s).2 j &&& (eOk ||| eError) = eOk := by
        intro j hj
        have := hprev (j + 1) (by omega)
        rwa [stepSt_shift] at this
      have hfail2 : stepSt f (f s).2 k &&& (eOk ||| eError) ≠ eOk := by
        rw [← stepSt_shift]
        exact hfail
      simp only [cycLoop]
      rw [show (e1st ||| eTry ||| eSkipBit ||| eRet ||| eOk : Nat) = cycClear from rfl]
      rw [if_pos hcond, ih k (f s).2 _ (i + 1) (by omega) hc2 hprev2 hfail2]
      rw [show i + 1 + k = i + (k + 1) from by omega, stepSt_shift f s k,
        iterN_succ_shift f s (k + 1)]
      rfl

/-- The repetition loop with `min = 0` always returns a status containing
`Ok`, whatever the body does. -/
theorem cycLoop_min0 (f : PState → Nat × PState) (flg : Nat) :
    ∀ (fuel : Nat) (stat i : Nat) (s : PState),
      (cycLoop f 0 flg stat i fuel s).1 &&& eOk ≠ 0 := by
  intro fuel
  induction fuel with
  | zero =>
    intro stat i s
    simp only [cycLoop]
    rw [land_eOk_of_lor]
    decide
  | succ fuel ih =>
    intro stat i s
    simp only [cycLoop]
    by_cases hcond : (stat ||| (f s).1) &&& (eOk ||| eError) = eOk
    · rw [if_pos hcond]
      exact ih _ _ _
    · rw [if_neg hcond, if_neg (Nat.not_lt_zero i)]
      rw [land_eOk_of_lor]
      decide


/-- C4 (amended): behavior of a repetition node with bounds `min`/`max` and
constructed overflow flag `flg` (`mkCycle` stores `flg = Over` exactly when
`total ≥ limit` at construction).  (i) With `min = 0` the repetition always
returns `Ok`.  (ii) When the first `max` body evaluations all succeed, the
loop runs exactly `max` iterations, clears the transient control bits before
each, and returns the accumulated status with `flg` and `Ok` ORed in; with
`flg = 0` or `flg = Over` the result carries `Over` iff `flg = Over` or the
accumulated body statuses carry `Over` — so, contrary to the spec sentence,
an `Over` inherited from the body (e.g. a nested repetition) survives even
when this node's own limit was not triggered, because the per-iteration clear
mask omits `Over`.  (iii) When the body fails at iteration `k < max` after
`k` successes, the repetition stops there keeping the consumed state, and
returns `Ok` exactly when `k ≥ min`. -/
theorem lor_zero_eq (x : Nat) : x ||| 0 = x := by
  rw [Nat.lor_comm, Nat.zero_or]

theorem claim_C4 (inp : List Nat) (mn mx flg : Nat) (body : Expr) (s : PState) :
    ((parse inp (.cyc 0 mx flg body) s).1 &&& eOk ≠ 0) ∧
    ((∀ k, k < mx → stepSt (parse inp body) s k &&& (eOk ||| eError) = eOk) →
      parse inp (.cyc mn mx flg body) s =
        (cAcc (parse inp body) 0 s mx ||| flg ||| eOk, iterN (parse inp body) s mx) ∧
      ((flg = 0 ∨ flg = eOver) →
        ((parse inp (.cyc mn mx flg body) s).1 &&& eOver ≠ 0 ↔
          flg = eOver ∨ cAcc (parse inp body) 0 s mx &&& eOver ≠ 0))) ∧
    (∀ k, k < mx → (∀ j, j < k → stepSt (parse inp body) s j &&& (eOk ||| eError) = eOk) →
      stepSt (parse inp body) s k &&& (eOk ||| eError) ≠ eOk →
      parse inp (.cyc mn mx flg body) s =
        (if k < mn then
           andNot (cAcc (parse inp body) 0 s k ||| stepSt (parse inp body) s k) eOk
         else (cAcc (parse inp body) 0 s k ||| stepSt (parse inp body) s k) ||| eOk,
         iterN (parse inp body) s (k + 1))) := by
  refine ⟨?_, ?_, ?_⟩
  · rw [parse_cyc]
    exact cycLoop_min0 (parse inp body) flg mx 0 0 s
  · intro hall
    have hrun := cycLoop_run (parse inp body) mn flg mx s 0 0 (by decide) hall
    rw [parse_cyc]
    refine ⟨hrun, ?_⟩
    intro hflg
    rw [hrun]
    show (cAcc (parse inp body) 0 s mx ||| flg ||| eOk) &&& eOver ≠ 0 ↔
      flg = eOver ∨ cAcc (parse inp body) 0 s mx &&& eOver ≠ 0
    have hsplit : (cAcc (parse inp body) 0 s mx ||| flg ||| eOk) &&& eOver =
        cAcc (parse inp body) 0 s mx &&& eOver ||| flg &&& eOver := by
      rw [land_lor_right, land_lor_right, show (eOk : Nat) &&& eOver = 0 by decide,
        lor_zero_eq]
    rw [hsplit]
    rcases hflg with rfl | rfl
    · rw [show (0 : Nat) &&& eOver = 0 by decide, lor_zero_eq]
      constructor
      · intro h
        exact Or.inr h
      · intro h
        rcases h with h | h
        · exact absurd h.symm (by decide)
        · exact h
    · rw [show eOver &&& eOver = eOver by decide]
      constructor
      · intro _
        exact Or.inl rfl
      · intro _
        intro hc
        have := (lor_eq_zero_split hc).2
        exact absurd this (by decide)
  · intro k hk hprev hfail
    have := cycLoop_fail (parse inp body) mn flg mx k s 0 0 hk (by decide) hprev hfail
    rw [parse_cyc]
    simpa using this

theorem claim_C4_witness :
    parse [97] (.cyc 1 1 0 (.tok [97])) (initState none) =
      (cAcc (parse [97] (.tok [97])) 0 (initState none) 1 ||| 0 ||| eOk,
       iterN (parse [97] (.tok [97])) (initState none) 1) ∧
    parse [98] (.cyc 1 1 0 (.tok [97])) (initState none) =
      (andNot (cAcc (parse [98] (.tok [97])) 0 (initState none) 0 |||
         stepSt (parse [98] (.tok [97])) (initState none) 0) eOk,
       iterN (parse [98] (.tok [97])) (initState none) 1) := by
  constructor
  · exact ((claim_C4 [97] 1 1 0 (.tok [97]) (initState none)).2.1 (by
      intro k hk
      have hk0 : k = 0 := by omega
      subst hk0
      simp [stepSt, iterN, parse_tok, initState, back, zero_parse, wsRun, byteAt, isWs]
      decide)).1
  · exact ((claim_C4 [98] 1 1 0 (.tok [97]) (initState none)).2.2 0 (by decide)
      (by intro j hj; omega)
      (by
        simp [stepSt, iterN, parse_tok, initState, back, zero_parse, wsRun, byteAt, isWs]
        decide)).trans (by norm_num)

/-- C4 counterexample to the spec's `Over` sentence: nest a repetition whose
overflow limit fires (`mkCycle 0 1 1`, flag `Over`) inside one whose limit
does not (`mkCycle 0 1 2`, flag 0).  On input `"a"` the outer repetition
completes with status carrying `Over` even though its own overflow limit was
never triggered at construction: the inner `Over` leaks out because the
per-iteration clear mask omits it. -/
theorem claim_C4_cex :
    mkCycle 0 1 2 (mkCycle 0 1 1 (.tok [97])) =
      .cyc 0 1 0 (.cyc 0 1 eOver (.tok [97])) ∧
    (parse [97] (mkCycle 0 1 2 (mkCycle 0 1 1 (.tok [97]))) (initState none)).1 &&&
      eOver ≠ 0 := by
  constructor
  · rfl
  · simp [mkCycle, parse_cyc, cycLoop, parse_tok, initState, back, zero_parse, wsRun,
      byteAt, isWs, andNot]
    decide


/-! ### Status algebra of `_And::_parse` -/

/-- The status returned when a sequence child fails never contains `Ok`. -/
theorem land_zero_eq (x : Nat) : x &&& 0 = 0 := by
  apply Nat.eq_of_testBit_eq
  intro i
  simp [Nat.testBit_and]

theorem andFail_no_ok (st : Nat) :
    ((if st &&& (eEof ||| eOver) ≠ 0 then eError else 0) |||
      andNot st (eTry ||| eSkipBit ||| eOk)) &&& eOk = 0 := by
  rw [land_lor_right, andNot_land,
    show (0xFFFFFFFF ^^^ (eTry ||| eSkipBit ||| eOk)) &&& eOk = 0 by decide, land_zero_eq]
  by_cases h : st &&& (eEof ||| eOver) ≠ 0
  · rw [if_pos h]
    decide
  · rw [if_neg h]
    decide

/-- The status returned when every sequence child succeeded contains `Ok`. -/
theorem andSucc_ok (st : Nat) :
    ((if st &&& eTry ≠ 0 then eRet else 0) ||| eOk ||| andNot st (eTry ||| eSkipBit)) &&&
      eOk ≠ 0 := by
  intro hc
  rw [land_lor_right, land_eOk_of_lor] at hc
  exact absurd (lor_eq_zero_split hc).1 (by decide)

/-- After the `for` increment clears `Skip|Ret|Ok`, the only bit of
`Ok|Error` a status can keep is `Error`. -/
theorem andNot_cs_no_ok (x : Nat) :
    andNot x (eSkipBit ||| eRet ||| eOk) &&& (eOk ||| eError) = x &&& eError := by
  rw [andNot_land,
    show (0xFFFFFFFF ^^^ (eSkipBit ||| eRet ||| eOk)) &&& (eOk ||| eError) = eError by decide]

/-- ORing a `Skip` marker's status into an already-cleared status and
clearing again changes nothing. -/
theorem clear_skip_clear (x : Nat) :
    andNot (andNot x (eSkipBit ||| eRet ||| eOk) ||| (eOk ||| eSkipBit))
      (eSkipBit ||| eRet ||| eOk) = andNot x (eSkipBit ||| eRet ||| eOk) := by
  rw [andNot_lor, andNot_andNot,
    show andNot (eOk ||| eSkipBit) (eSkipBit ||| eRet ||| eOk) = 0 by decide, lor_zero_eq]

/-- A status with a `Skip` marker ORed in has the `Skip` bit. -/
theorem skip_bit_set (x : Nat) : (x ||| (eOk ||| eSkipBit)) &&& eSkipBit ≠ 0 := by
  intro hc
  rw [land_lor_right] at hc
  have h := (lor_eq_zero_split hc).2
  rw [show (eOk ||| eSkipBit) &&& eSkipBit = eSkipBit by decide] at h
  exact absurd h (by decide)


/-- C5 (amended): for all grammar nodes `x` and `y` and every input,
`Sequence(x, Skip(), y)` and `Sequence(x, y)` return identical statuses (in
particular one succeeds exactly when the other does), but `Skip` is not pure
lookahead about the cursor: when both succeed, the `Skip`-marked sequence
retracts the span of the following child `y` — its final cursor is the end of
`x`'s canonical match — while the plain sequence (with `x` not itself
carrying a `Skip` marker) ends at the end of `y`'s canonical match. -/
theorem claim_C5 (inp : List Nat) (x y : Expr) (s : PState) (hv : s.cntxV ≠ []) :
    (parse inp (.seq [x, skipCtrl, y]) s).1 = (parse inp (.seq [x, y]) s).1 ∧
    ((parse inp (.seq [x, skipCtrl, y]) s).1 &&& eOk ≠ 0 →
      back (parse inp (.seq [x, skipCtrl, y]) s).2 = canonTop inp x s.level (back s)) ∧
    (canonSt inp x s.level (back s) &&& eSkipBit = 0 →
      (parse inp (.seq [x, y]) s).1 &&& eOk ≠ 0 →
      back (parse inp (.seq [x, y]) s).2 =
        canonTop inp y s.level (canonTop inp x s.level (back s))) := by
  obtain ⟨v, lvl, U, o⟩ := s
  have hv' : v ≠ [] := hv
  simp only [back]
  obtain ⟨hx1, hx2, hx3, hx4⟩ := parse_canon inp x lvl (v.getLastD 0) v U o hv' rfl
  have hxs : (parse inp x ⟨v, lvl, U, o⟩).2 =
      ⟨v ++ canonD inp x lvl (v.getLastD 0), lvl, (parse inp x ⟨v, lvl, U, o⟩).2.cntxU, o⟩ :=
    PState.eta_of _ _ _ _ hx2 hx3 hx4
  by_cases hokx : canonSt inp x lvl (v.getLastD 0) &&& (eOk ||| eError) = eOk
  · -- the first child succeeds
    have herr : canonSt inp x lvl (v.getLastD 0) &&& eError = 0 :=
      (land_sub hokx eError (by decide)).trans (by decide)
    have hS1M : andNot (canonSt inp x lvl (v.getLastD 0)) (eSkipBit ||| eRet ||| eOk) &&& (eOk ||| eError) = 0 := by
      rw [andNot_cs_no_ok, herr]
    have hlen0 : (v ++ canonD inp x lvl (v.getLastD 0) : List Nat).length ≠ 0 := by
      have := List.length_pos.mpr hv'
      simp only [List.length_append]
      omega
    have hvw : (v ++ canonD inp x lvl (v.getLastD 0) : List Nat) ≠ [] := by
      simp [hv']
    have hlw : (v ++ canonD inp x lvl (v.getLastD 0) : List Nat).getLastD 0 = canonTop inp x lvl (v.getLastD 0) := by
      rw [getLastD_append]
      rfl
    have hE1 : ∀ (rest : List (PState → Nat × PState)),
        andLoop (parse inp x :: rest) 0 0 v.length ⟨v, lvl, U, o⟩ =
          andLoop rest (andNot (canonSt inp x lvl (v.getLastD 0)) (eSkipBit ||| eRet ||| eOk))
            (if canonSt inp x lvl (v.getLastD 0) &&& eSkipBit ≠ 0 then (v ++ canonD inp x lvl (v.getLastD 0) : List Nat).length else 0)
            v.length
            ⟨v ++ canonD inp x lvl (v.getLastD 0), lvl, (parse inp x ⟨v, lvl, U, o⟩).2.cntxU, o⟩ := by
      intro rest
      have hlen : (parse inp x ⟨v, lvl, U, o⟩).2.cntxV.length =
          (v ++ canonD inp x lvl (v.getLastD 0) : List Nat).length := by rw [hx2]
      simp only [andLoop, hx1, Nat.zero_or, ne_eq, not_true_eq_false, eq_self_iff_true,
        if_false, if_true]
      rw [if_pos hokx, hlen, hxs]
    have hE2step : ∀ (sv : Nat) (Uw : Option (List Span)),
        (sv = 0 ∨ sv = (v ++ canonD inp x lvl (v.getLastD 0) : List Nat).length) →
        andLoop [parse inp skipCtrl, parse inp y] (andNot (canonSt inp x lvl (v.getLastD 0)) (eSkipBit ||| eRet ||| eOk)) sv v.length
            ⟨v ++ canonD inp x lvl (v.getLastD 0), lvl, Uw, o⟩ =
          andLoop [parse inp y] (andNot (canonSt inp x lvl (v.getLastD 0)) (eSkipBit ||| eRet ||| eOk)) ((v ++ canonD inp x lvl (v.getLastD 0) : List Nat).length) v.length
            ⟨v ++ canonD inp x lvl (v.getLastD 0), lvl, Uw, o⟩ := by
      intro sv Uw hsv
      have hcond : (andNot (canonSt inp x lvl (v.getLastD 0)) (eSkipBit ||| eRet ||| eOk) ||| (eOk ||| eSkipBit)) &&& (eOk ||| eError) = eOk := by
        rw [lor_land_left _ _ hS1M]
        decide
      have hskipb : (andNot (canonSt inp x lvl (v.getLastD 0)) (eSkipBit ||| eRet ||| eOk) ||| (eOk ||| eSkipBit)) &&& eSkipBit ≠ 0 := skip_bit_set _
      simp only [andLoop, skipCtrl, parse_ctrl]
      rw [if_pos hcond]
      rcases hsv with rfl | rfl
      · simp only [ne_eq, not_true_eq_false, eq_self_iff_true, if_false]
        rw [if_pos hskipb, clear_skip_clear]
      · rw [if_pos hlen0, if_pos hlen0, resizeV_self]
        rw [if_pos hskipb, clear_skip_clear]
    by_cases hoky : canonSt inp y lvl (canonTop inp x lvl (v.getLastD 0)) &&& (eOk ||| eError) = eOk
    · -- both children succeed
      have hEy : ∀ (sv : Nat) (Uw : Option (List Span)),
          (sv = 0 ∨ sv = (v ++ canonD inp x lvl (v.getLastD 0) : List Nat).length) →
          andLoop [parse inp y] (andNot (canonSt inp x lvl (v.getLastD 0)) (eSkipBit ||| eRet ||| eOk)) sv v.length ⟨v ++ canonD inp x lvl (v.getLastD 0), lvl, Uw, o⟩ =
            ((if andNot (andNot (canonSt inp x lvl (v.getLastD 0)) (eSkipBit ||| eRet ||| eOk) ||| canonSt inp y lvl (canonTop inp x lvl (v.getLastD 0))) (eSkipBit ||| eRet ||| eOk) &&& eTry ≠ 0
                then eRet else 0) ||| eOk |||
               andNot (andNot (andNot (canonSt inp x lvl (v.getLastD 0)) (eSkipBit ||| eRet ||| eOk) ||| canonSt inp y lvl (canonTop inp x lvl (v.getLastD 0))) (eSkipBit ||| eRet ||| eOk))
                 (eTry ||| eSkipBit),
             ⟨if sv = 0 then (v ++ canonD inp x lvl (v.getLastD 0)) ++ canonD inp y lvl (canonTop inp x lvl (v.getLastD 0)) else v ++ canonD inp x lvl (v.getLastD 0), lvl,
              (parse inp y ⟨v ++ canonD inp x lvl (v.getLastD 0), lvl, Uw, o⟩).2.cntxU, o⟩) := by
        intro sv Uw hsv
        obtain ⟨hy1, hy2, hy3, hy4⟩ :=
          parse_canon inp y lvl (canonTop inp x lvl (v.getLastD 0)) (v ++ canonD inp x lvl (v.getLastD 0)) Uw o hvw hlw
        have hys : (parse inp y ⟨v ++ canonD inp x lvl (v.getLastD 0), lvl, Uw, o⟩).2 =
            ⟨(v ++ canonD inp x lvl (v.getLastD 0)) ++ canonD inp y lvl (canonTop inp x lvl (v.getLastD 0)), lvl, (parse inp y ⟨v ++ canonD inp x lvl (v.getLastD 0), lvl, Uw, o⟩).2.cntxU, o⟩ :=
          PState.eta_of _ _ _ _ hy2 hy3 hy4
        have hcnd : (andNot (canonSt inp x lvl (v.getLastD 0)) (eSkipBit ||| eRet ||| eOk) ||| canonSt inp y lvl (canonTop inp x lvl (v.getLastD 0))) &&& (eOk ||| eError) = eOk := by
          rw [lor_land_left _ _ hS1M]
          exact hoky
        simp only [andLoop, hy1]
        rw [if_pos hcnd]
        rcases hsv with rfl | rfl
        · simp only [ne_eq, not_true_eq_false, eq_self_iff_true, if_false, if_true]
          rw [hys]
        · have hres : resizeV (parse inp y ⟨v ++ canonD inp x lvl (v.getLastD 0), lvl, Uw, o⟩).2.cntxV
              ((v ++ canonD inp x lvl (v.getLastD 0) : List Nat).length) = (v ++ canonD inp x lvl (v.getLastD 0) : List Nat) := by
            rw [hy2, resizeV_prefix]
          have hst : (⟨resizeV (parse inp y ⟨v ++ canonD inp x lvl (v.getLastD 0), lvl, Uw, o⟩).2.cntxV
                ((v ++ canonD inp x lvl (v.getLastD 0) : List Nat).length),
              (parse inp y ⟨v ++ canonD inp x lvl (v.getLastD 0), lvl, Uw, o⟩).2.level,
              (parse inp y ⟨v ++ canonD inp x lvl (v.getLastD 0), lvl, Uw, o⟩).2.cntxU,
              (parse inp y ⟨v ++ canonD inp x lvl (v.getLastD 0), lvl, Uw, o⟩).2.off⟩ : PState) =
              ⟨v ++ canonD inp x lvl (v.getLastD 0), lvl, (parse inp y ⟨v ++ canonD inp x lvl (v.getLastD 0), lvl, Uw, o⟩).2.cntxU, o⟩ := by
            rw [hres, hy3, hy4]
          rw [if_pos hlen0, hst]
          rw [if_neg hlen0]
      refine ⟨?_, ?_, ?_⟩
      · rw [parse_seq, parse_seq]
        simp only [List.map_cons, List.map_nil]
        rw [hE1 [parse inp skipCtrl, parse inp y], hE1 [parse inp y]]
        rw [hE2step _ _ (by
          by_cases h : canonSt inp x lvl (v.getLastD 0) &&& eSkipBit ≠ 0
          · exact Or.inr (if_pos h)
          · exact Or.inl (if_neg h))]
        rw [hEy ((v ++ canonD inp x lvl (v.getLastD 0) : List Nat).length) _ (Or.inr rfl)]
        rw [hEy (if canonSt inp x lvl (v.getLastD 0) &&& eSkipBit ≠ 0 then (v ++ canonD inp x lvl (v.getLastD 0) : List Nat).length else 0) _ (by
          by_cases h : canonSt inp x lvl (v.getLastD 0) &&& eSkipBit ≠ 0
          · exact Or.inr (if_pos h)
          · exact Or.inl (if_neg h))]
      · intro _
        rw [parse_seq]
        simp only [List.map_cons, List.map_nil]
        rw [hE1 [parse inp skipCtrl, parse inp y]]
        rw [hE2step _ _ (by
          by_cases h : canonSt inp x lvl (v.getLastD 0) &&& eSkipBit ≠ 0
          · exact Or.inr (if_pos h)
          · exact Or.inl (if_neg h))]
        rw [hEy ((v ++ canonD inp x lvl (v.getLastD 0) : List Nat).length) _ (Or.inr rfl)]
        show (⟨if (v ++ canonD inp x lvl (v.getLastD 0) : List Nat).length = 0 then (v ++ canonD inp x lvl (v.getLastD 0)) ++ canonD inp y lvl (canonTop inp x lvl (v.getLastD 0)) else v ++ canonD inp x lvl (v.getLastD 0), lvl,
          _, o⟩ : PState).cntxV.getLastD 0 = canonTop inp x lvl (v.getLastD 0)
        rw [if_neg hlen0]
        exact hlw
      · intro hskipx _
        rw [parse_seq]
        simp only [List.map_cons, List.map_nil]
        rw [hE1 [parse inp y]]
        rw [hEy (if canonSt inp x lvl (v.getLastD 0) &&& eSkipBit ≠ 0 then (v ++ canonD inp x lvl (v.getLastD 0) : List Nat).length else 0) _
          (Or.inl (if_neg (not_not_intro hskipx)))]
        rw [if_neg (not_not_intro hskipx)]
        show (⟨if (0 : Nat) = 0 then (v ++ canonD inp x lvl (v.getLastD 0)) ++ canonD inp y lvl (canonTop inp x lvl (v.getLastD 0)) else v ++ canonD inp x lvl (v.getLastD 0), lvl,
          _, o⟩ : PState).cntxV.getLastD 0 = canonTop inp y lvl (canonTop inp x lvl (v.getLastD 0))
        rw [if_pos rfl]
        rw [show ((⟨(v ++ canonD inp x lvl (v.getLastD 0)) ++ canonD inp y lvl (canonTop inp x lvl (v.getLastD 0)), lvl,
          (parse inp y ⟨v ++ canonD inp x lvl (v.getLastD 0), lvl,
            (parse inp x ⟨v, lvl, U, o⟩).2.cntxU, o⟩).2.cntxU, o⟩ : PState).cntxV)
          = ((v ++ canonD inp x lvl (v.getLastD 0)) ++ canonD inp y lvl (canonTop inp x lvl (v.getLastD 0)) : List Nat) from rfl]
        rw [getLastD_append, hlw]
        rfl
    · -- the second child fails
      have hEy : ∀ (sv : Nat) (Uw : Option (List Span)),
          andLoop [parse inp y] (andNot (canonSt inp x lvl (v.getLastD 0)) (eSkipBit ||| eRet ||| eOk)) sv v.length ⟨v ++ canonD inp x lvl (v.getLastD 0), lvl, Uw, o⟩ =
            ((if (andNot (canonSt inp x lvl (v.getLastD 0)) (eSkipBit ||| eRet ||| eOk) ||| canonSt inp y lvl (canonTop inp x lvl (v.getLastD 0))) &&& (eEof ||| eOver) ≠ 0 then eError else 0) |||
               andNot (andNot (canonSt inp x lvl (v.getLastD 0)) (eSkipBit ||| eRet ||| eOk) ||| canonSt inp y lvl (canonTop inp x lvl (v.getLastD 0))) (eTry ||| eSkipBit ||| eOk),
             eraseTo (parse inp y ⟨v ++ canonD inp x lvl (v.getLastD 0), lvl, Uw, o⟩).2 v.length) := by
        intro sv Uw
        obtain ⟨hy1, hy2, hy3, hy4⟩ :=
          parse_canon inp y lvl (canonTop inp x lvl (v.getLastD 0)) (v ++ canonD inp x lvl (v.getLastD 0)) Uw o hvw hlw
        have hcnd : (andNot (canonSt inp x lvl (v.getLastD 0)) (eSkipBit ||| eRet ||| eOk) ||| canonSt inp y lvl (canonTop inp x lvl (v.getLastD 0))) &&& (eOk ||| eError) = canonSt inp y lvl (canonTop inp x lvl (v.getLastD 0)) &&& (eOk ||| eError) :=
          lor_land_left _ _ hS1M
        simp only [andLoop, hy1]
        rw [hcnd, if_neg hoky]
      refine ⟨?_, ?_, ?_⟩
      · rw [parse_seq, parse_seq]
        simp only [List.map_cons, List.map_nil]
        rw [hE1 [parse inp skipCtrl, parse inp y], hE1 [parse inp y]]
        rw [hE2step _ _ (by
          by_cases h : canonSt inp x lvl (v.getLastD 0) &&& eSkipBit ≠ 0
          · exact Or.inr (if_pos h)
          · exact Or.inl (if_neg h))]
        rw [hEy ((v ++ canonD inp x lvl (v.getLastD 0) : List Nat).length) _, hEy _ _]
      · intro hok
        exfalso
        rw [parse_seq] at hok
        simp only [List.map_cons, List.map_nil] at hok
        rw [hE1 [parse inp skipCtrl, parse inp y]] at hok
        rw [hE2step _ _ (by
          by_cases h : canonSt inp x lvl (v.getLastD 0) &&& eSkipBit ≠ 0
          · exact Or.inr (if_pos h)
          · exact Or.inl (if_neg h))] at hok
        rw [hEy ((v ++ canonD inp x lvl (v.getLastD 0) : List Nat).length) _] at hok
        exact hok (andFail_no_ok _)
      · intro _ hok
        exfalso
        rw [parse_seq] at hok
        simp only [List.map_cons, List.map_nil] at hok
        rw [hE1 [parse inp y]] at hok
        rw [hEy _ _] at hok
        exact hok (andFail_no_ok _)
  · -- the first child fails: both sequences stop at it with the same result
    have hE : ∀ (rest : List (PState → Nat × PState)),
        andLoop (parse inp x :: rest) 0 0 v.length ⟨v, lvl, U, o⟩ =
          ((if canonSt inp x lvl (v.getLastD 0) &&& (eEof ||| eOver) ≠ 0 then eError else 0) |||
             andNot (canonSt inp x lvl (v.getLastD 0)) (eTry ||| eSkipBit ||| eOk),
           eraseTo (parse inp x ⟨v, lvl, U, o⟩).2 v.length) := by
      intro rest
      simp only [andLoop, hx1, Nat.zero_or]
      rw [if_neg hokx]
    refine ⟨?_, ?_, ?_⟩
    · rw [parse_seq, parse_seq]
      simp only [List.map_cons, List.map_nil]
      rw [hE [parse inp skipCtrl, parse inp y], hE [parse inp y]]
    · intro hok
      exfalso
      rw [parse_seq] at hok
      simp only [List.map_cons, List.map_nil] at hok
      rw [hE [parse inp skipCtrl, parse inp y]] at hok
      exact hok (andFail_no_ok _)
    · intro _ hok
      exfalso
      rw [parse_seq] at hok
      simp only [List.map_cons, List.map_nil] at hok
      rw [hE [parse inp y]] at hok
      exact hok (andFail_no_ok _)


/-- C5 counterexample: with `x = Token("a")`, `y = Token("b")` and input
`"ab"`, both `Sequence(x, Skip(), y)` and `Sequence(x, y)` succeed, but their
final cursors differ: the `Skip`-marked sequence retracts `y`'s consumed span
and ends at cursor 1 (the end of `x`'s match), while the plain sequence ends
at cursor 2, so `Skip` is not pure lookahead with equal final cursors. -/
theorem claim_C5_cex :
    (parse [97, 98] (.seq [.tok [97], skipCtrl, .tok [98]]) (initState none)).1 &&&
      eOk ≠ 0 ∧
    (parse [97, 98] (.seq [.tok [97], .tok [98]]) (initState none)).1 &&& eOk ≠ 0 ∧
    back (parse [97, 98] (.seq [.tok [97], skipCtrl, .tok [98]]) (initState none)).2 = 1 ∧
    back (parse [97, 98] (.seq [.tok [97], .tok [98]]) (initState none)).2 = 2 := by
  refine ⟨?_, ?_, ?_, ?_⟩ <;>
    simp [parse_seq, andLoop, parse_tok, parse_ctrl, skipCtrl, initState, back,
      zero_parse, wsRun, byteAt, isWs, andNot, resizeV, eraseTo, stubPush]
  all_goals decide

theorem claim_C5_witness :
    back (parse [97, 98] (.seq [.tok [97], skipCtrl, .tok [98]]) (initState none)).2 =
      canonTop [97, 98] (.tok [97]) 1 0 ∧
    back (parse [97, 98] (.seq [.tok [97], .tok [98]]) (initState none)).2 =
      canonTop [97, 98] (.tok [98]) 1 (canonTop [97, 98] (.tok [97]) 1 0) := by
  have h := claim_C5 [97, 98] (.tok [97]) (.tok [98]) (initState none) (by decide)
  refine ⟨h.2.1 ?_, h.2.2 ?_ ?_⟩
  · simp [parse_seq, andLoop, parse_tok, parse_ctrl, skipCtrl, initState, back,
      zero_parse, wsRun, byteAt, isWs, andNot, resizeV, eraseTo, stubPush]
    decide
  · simp only [canonSt, canon, parse_tok]
    simp [back, zero_parse, wsRun, byteAt, isWs]
    decide
  · simp [parse_seq, andLoop, parse_tok, initState, back,
      zero_parse, wsRun, byteAt, isWs, andNot, resizeV, eraseTo, stubPush]
    decide


/-! ### NUL-safety: grammars whose terminals reject the sentinel -/

/-- Every terminal byte class of the grammar rejects the byte value 0 (the
usual case: `Token` classes are built from printable characters, and
`Token(1, 255)` ranges exclude 0). -/
def noNulTok : Expr → Bool
  | .tok cls => !(cls.contains 0)
  | .ctrl _ => true
  | .seq cs => cs.attach.all fun c => noNulTok c.1
  | .alt cs => cs.attach.all fun c => noNulTok c.1
  | .cyc _ _ _ body => noNulTok body
  | .lex none => true
  | .lex (some b) => noNulTok b
  | .rule _ none => true
  | .rule _ (some b) => noNulTok b
termination_by e => sizeOf e
decreasing_by
  all_goals simp_wf
  all_goals try omega
  all_goals (have h := List.sizeOf_lt_of_mem c.2; omega)

/-- All cursor entries bounded by `L` (the input length). -/
def BddVon (L : Nat) (v : List Nat) : Prop := ∀ p ∈ v, p ≤ L

/-- A parse function preserves cursor-entry boundedness. -/
def PresB (L : Nat) (f : PState → Nat × PState) : Prop :=
  ∀ s : PState, BddVon L s.cntxV → BddVon L (f s).2.cntxV

theorem bddVon_take {L : Nat} {v : List Nat} (h : BddVon L v) (n : Nat) :
    BddVon L (v.take n) := fun p hp => h p (List.mem_of_mem_take hp)

theorem bddVon_drop {L : Nat} {v : List Nat} (h : BddVon L v) (n : Nat) :
    BddVon L (v.drop n) := fun p hp => h p (List.mem_of_mem_drop hp)

theorem bddVon_append {L : Nat} {v w : List Nat} (h1 : BddVon L v) (h2 : BddVon L w) :
    BddVon L (v ++ w) := by
  intro p hp
  rcases List.mem_append.mp hp with h | h
  · exact h1 p h
  · exact h2 p h

theorem bddVon_replicate (L n : Nat) : BddVon L (List.replicate n 0) := by
  intro p hp
  rw [List.eq_of_mem_replicate hp]
  exact Nat.zero_le L

theorem bddVon_resizeV {L : Nat} {v : List Nat} (h : BddVon L v) (n : Nat) :
    BddVon L (resizeV v n) :=
  bddVon_append (bddVon_take h n) (bddVon_replicate L _)

theorem bddVon_getLastD {L : Nat} {v : List Nat} (h : BddVon L v) :
    v.getLastD 0 ≤ L := by
  rcases List.eq_nil_or_concat v with rfl | ⟨l, a, rfl⟩
  · exact Nat.zero_le L
  · rw [List.concat_eq_append, List.getLastD_concat]
    exact h a (by simp)

theorem bddVon_set {L : Nat} {v : List Nat} {a : Nat} (h : BddVon L v) (ha : a ≤ L)
    (i : Nat) : BddVon L (v.set i a) := by
  intro p hp
  rcases List.mem_or_eq_of_mem_set hp with hm | rfl
  · exact h p hm
  · exact ha

theorem bddVon_getD {L : Nat} {v : List Nat} (h : BddVon L v) (i : Nat) :
    v.getD i 0 ≤ L := by
  induction v generalizing i with
  | nil => simp [List.getD]
  | cons a l ih =>
    cases i with
    | zero => exact h a (by simp)
    | succ i =>
      rw [List.getD_cons_succ]
      exact ih (fun p hp => h p (by simp [hp])) i

theorem andLoop_bdd {L : Nat} {fs : List (PState → Nat × PState)}
    (hfs : ∀ f ∈ fs, PresB L f) :
    ∀ (stat save size : Nat) (s : PState), BddVon L s.cntxV →
      BddVon L (andLoop fs stat save size s).2.cntxV := by
  induction fs with
  | nil =>
    intro stat save size s hs
    exact hs
  | cons f rest ih =>
    intro stat save size s hs
    have hr : BddVon L (f s).2.cntxV := hfs f (by simp) s hs
    simp only [andLoop]
    by_cases hok : (stat ||| (f s).1) &&& (eOk ||| eError) = eOk
    · rw [if_pos hok]
      apply ih (fun g hg => hfs g (by simp [hg]))
      by_cases hsv : save ≠ 0
      · rw [if_pos hsv]
        exact bddVon_resizeV hr save
      · rw [if_neg hsv]
        exact hr
    · rw [if_neg hok]
      exact bddVon_take hr size

theorem orLoop_bdd {L : Nat} {fs : List (PState → Nat × PState)}
    (hfs : ∀ f ∈ fs, PresB L f) {org : Nat} (horg : org ≤ L) :
    ∀ (stat : Nat) (mx tmp : Int) (size : Nat) (s : PState), BddVon L s.cntxV →
      BddVon L (orLoop fs stat mx tmp org size s).2.cntxV := by
  induction fs with
  | nil =>
    intro stat mx tmp size s hs
    exact hs
  | cons f rest ih =>
    intro stat mx tmp size s hs
    have hs0 : BddVon L (if size < s.cntxV.length then
        ({ s with cntxV := s.cntxV ++ [org] } : PState) else s).cntxV := by
      by_cases hlt : size < s.cntxV.length
      · rw [if_pos hlt]
        exact bddVon_append hs (by intro p hp; simp at hp; omega)
      · rw [if_neg hlt]
        exact hs
    have hr : BddVon L (f (if size < s.cntxV.length then
        ({ s with cntxV := s.cntxV ++ [org] } : PState) else s)).2.cntxV :=
      hfs f (by simp) _ hs0
    simp only [orLoop]
    by_cases hacc : (stat ||| (f (if size < s.cntxV.length then
        ({ s with cntxV := s.cntxV ++ [org] } : PState) else s)).1) &&&
        (eOk ||| eError) ≠ 0 ∧
        ((if (stat ||| (f (if size < s.cntxV.length then
            ({ s with cntxV := s.cntxV ++ [org] } : PState) else s)).1) &&&
            (eOk ||| eError) ≠ 0 then
            (back (f (if size < s.cntxV.length then
              ({ s with cntxV := s.cntxV ++ [org] } : PState) else s)).2 : Int) -
              (org : Int)
          else tmp) > mx ∨
         ((if (stat ||| (f (if size < s.cntxV.length then
            ({ s with cntxV := s.cntxV ++ [org] } : PState) else s)).1) &&&
            (eOk ||| eError) ≠ 0 then
            (back (f (if size < s.cntxV.length then
              ({ s with cntxV := s.cntxV ++ [org] } : PState) else s)).2 : Int) -
              (org : Int)
          else tmp) > 0 ∧
          (stat ||| (f (if size < s.cntxV.length then
            ({ s with cntxV := s.cntxV ++ [org] } : PState) else s)).1) &&&
            (eRet ||| e1st ||| eError) ≠ 0))
    · rw [if_pos hacc]
      have hs2 : BddVon L (if size < s.cntxV.length then
          eraseRange (f (if size < s.cntxV.length then
            ({ s with cntxV := s.cntxV ++ [org] } : PState) else s)).2 size
            (s.cntxV.length + 1)
          else (f (if size < s.cntxV.length then
            ({ s with cntxV := s.cntxV ++ [org] } : PState) else s)).2).cntxV := by
        by_cases hlt : size < s.cntxV.length
        · rw [if_pos hlt]
          exact bddVon_append (bddVon_take hr size) (bddVon_drop hr _)
        · rw [if_neg hlt]
          exact hr
      by_cases hbrk : (stat ||| (f (if size < s.cntxV.length then
          ({ s with cntxV := s.cntxV ++ [org] } : PState) else s)).1) &&&
          (eRet ||| e1st ||| eError) ≠ 0
      · rw [if_pos hbrk]
        exact hs2
      · rw [if_neg hbrk]
        exact ih (fun g hg => hfs g (by simp [hg])) _ _ _ _ _ hs2
    · rw [if_neg hacc]
      apply ih (fun g hg => hfs g (by simp [hg]))
      by_cases hlt : s.cntxV.length < (f (if size < s.cntxV.length then
          ({ s with cntxV := s.cntxV ++ [org] } : PState) else s)).2.cntxV.length
      · rw [if_pos hlt]
        exact bddVon_take hr _
      · rw [if_neg hlt]
        exact hr

theorem cycLoop_bdd {L : Nat} {f : PState → Nat × PState} (hf : PresB L f)
    (mn flg : Nat) :
    ∀ (fuel stat i : Nat) (s : PState), BddVon L s.cntxV →
      BddVon L (cycLoop f mn flg stat i fuel s).2.cntxV := by
  intro fuel
  induction fuel with
  | zero =>
    intro stat i s hs
    exact hs
  | succ fuel ih =>
    intro stat i s hs
    simp only [cycLoop]
    by_cases hok : (stat ||| (f s).1) &&& (eOk ||| eError) = eOk
    · rw [if_pos hok]
      exact ih _ _ _ (hf s hs)
    · rw [if_neg hok]
      exact hf s hs


/-- Boundedness through the result-selection `if` of a collapse. -/
theorem bddVon_ite_pair {L : Nat} {c : Prop} [Decidable c] {p q : Nat × PState}
    (h1 : BddVon L p.2.cntxV) (h2 : BddVon L q.2.cntxV) :
    BddVon L (if c then p else q).2.cntxV := by
  by_cases h : c
  · rw [if_pos h]
    exact h1
  · rw [if_neg h]
    exact h2

/-- Boundedness of the cursor: a grammar whose terminal classes all reject
the NUL sentinel never pushes a cursor entry past the input length. -/
theorem parse_bdd (inp : List Nat) (e : Expr) (he : noNulTok e = true) :
    PresB inp.length (parse inp e) := by
  suffices h : ∀ n (ex : Expr), sizeOf ex < n → noNulTok ex = true →
      PresB inp.length (parse inp ex) from h (sizeOf e + 1) e (by omega) he
  intro n
  induction n with
  | zero =>
    intro ex hex
    omega
  | succ n ih =>
    intro ex hex he
    cases ex with
    | tok cls =>
      intro s hs
      have hcls : cls.contains 0 = false := by
        simpa only [noNulTok, Bool.not_eq_true'] using he
      rw [parse_tok]
      by_cases hlvl : s.level = 0
      · simp only [hlvl, ne_eq, eq_self_iff_true, not_true_eq_false, if_false]
        by_cases hm : cls.contains (byteAt inp (back s)) = true
        · rw [if_pos hm]
          have hnz : byteAt inp (back s) ≠ 0 := by
            intro h0
            rw [h0, hcls] at hm
            cases hm
          have hlt := byteAt_lt_length hnz
          exact bddVon_append hs (by intro p hp; simp at hp; omega)
        · rw [if_neg hm]
          exact hs
      · simp only [ne_eq, hlvl, not_false_eq_true, if_true]
        have hback : back s ≤ inp.length := bddVon_getLastD hs
        by_cases hm : cls.contains (byteAt inp (zero_parse inp (back s))) = true
        · rw [if_pos hm]
          have hnz : byteAt inp (zero_parse inp (back s)) ≠ 0 := by
            intro h0
            rw [h0, hcls] at hm
            cases hm
          have hlt := byteAt_lt_length hnz
          exact bddVon_append (bddVon_append hs (by intro p hp; simp at hp; omega))
            (by intro p hp; simp at hp; omega)
        · rw [if_neg hm]
          exact hs
    | ctrl flg =>
      intro s hs
      rw [parse_ctrl]
      exact hs
    | seq cs =>
      intro s hs
      rw [parse_seq]
      have hall : ∀ c ∈ cs, noNulTok c = true := by
        simp only [noNulTok, List.all_eq_true] at he
        intro c hc
        exact he ⟨c, hc⟩ (List.mem_attach _ _)
      have hfs : ∀ g ∈ cs.map (parse inp), PresB inp.length g := by
        intro g hg
        rw [List.mem_map] at hg
        obtain ⟨c, hc, rfl⟩ := hg
        have hsz := List.sizeOf_lt_of_mem hc
        refine ih c ?_ (hall c hc)
        simp only [Expr.seq.sizeOf_spec] at hex
        omega
      exact andLoop_bdd hfs 0 0 s.cntxV.length s hs
    | alt cs =>
      intro s hs
      rw [parse_alt]
      have hall : ∀ c ∈ cs, noNulTok c = true := by
        simp only [noNulTok, List.all_eq_true] at he
        intro c hc
        exact he ⟨c, hc⟩ (List.mem_attach _ _)
      have hfs : ∀ g ∈ cs.map (parse inp), PresB inp.length g := by
        intro g hg
        rw [List.mem_map] at hg
        obtain ⟨c, hc, rfl⟩ := hg
        have hsz := List.sizeOf_lt_of_mem hc
        refine ih c ?_ (hall c hc)
        simp only [Expr.alt.sizeOf_spec] at hex
        omega
      exact orLoop_bdd hfs (bddVon_getLastD hs) 0 0 (-1) s.cntxV.length s hs
    | cyc mn mx flg body =>
      intro s hs
      rw [parse_cyc]
      have hb : noNulTok body = true := by simpa only [noNulTok] using he
      refine cycLoop_bdd (ih body ?_ hb) mn flg mx 0 0 s hs
      simp only [Expr.cyc.sizeOf_spec] at hex
      omega
    | lex b =>
      cases b with
      | none =>
        intro s hs
        rw [parse_lex_none]
        exact hs
      | some bb =>
        intro s hs
        have hb : noNulTok bb = true := by simpa only [noNulTok] using he
        have hih : PresB inp.length (parse inp bb) := by
          refine ih bb ?_ hb
          simp only [Expr.lex.sizeOf_spec, Option.some.sizeOf_spec] at hex
          omega
        rw [parse_lex_some]
        by_cases hlvl : s.level = 0
        · rw [if_pos hlvl]
          exact hih s hs
        · rw [if_neg hlvl]
          have horg : zero_parse inp (back s) ≤ inp.length :=
            zero_parse_le_length inp _ (bddVon_getLastD hs)
          have hr : BddVon inp.length (parse inp bb
              { s with cntxV := s.cntxV ++ [zero_parse inp (back s)],
                       level := s.level - 1 }).2.cntxV :=
            hih _ (bddVon_append hs (by intro p hp; simp at hp; omega))
          exact bddVon_ite_pair
            (bddVon_resizeV (bddVon_set hr (bddVon_getLastD hr) _) _)
            (bddVon_resizeV hr _)
    | rule hasCb b =>
      cases b with
      | none =>
        intro s hs
        rw [parse_rule_none]
        exact hs
      | some bb =>
        intro s hs
        have hb : noNulTok bb = true := by simpa only [noNulTok] using he
        have hih : PresB inp.length (parse inp bb) := by
          refine ih bb ?_ hb
          simp only [Expr.rule.sizeOf_spec, Option.some.sizeOf_spec] at hex
          omega
        rw [parse_rule_some]
        by_cases hlvl : s.level = 0
        · rw [if_pos hlvl]
          exact hs
        · rw [if_neg hlvl]
          have hr : BddVon inp.length (parse inp bb
              { s with cntxU := if hasCb then some [] else none,
                       off := if hasCb then s.cntxV.length else 0 }).2.cntxV :=
            hih _ hs
          exact bddVon_ite_pair
            (bddVon_resizeV (bddVon_set hr (bddVon_getLastD hr) _) _)
            (bddVon_resizeV hr _)


/-- C10: NUL-safety.  A terminal whose byte class does not contain the byte
value 0, evaluated with the cursor (after any whitespace skipping) on the NUL
sentinel, returns 0 and leaves the whole state — cursor stack and semantic
stack included — untouched.  Consequently a parse built from such terminals
keeps every cursor entry within the input length: the default whitespace
skipper stops at the sentinel, so no cursor ever moves past the end of the
input. -/
theorem claim_C10 (inp : List Nat) (e : Expr) (he : noNulTok e = true) (s : PState)
    (hs : ∀ p ∈ s.cntxV, p ≤ inp.length) :
    (∀ cls : List Nat, cls.contains 0 = false →
      byteAt inp (if s.level ≠ 0 then zero_parse inp (back s) else back s) = 0 →
      parse inp (.tok cls) s = (0, s)) ∧
    (∀ p ∈ (parse inp e s).2.cntxV, p ≤ inp.length) ∧
    back (parse inp e s).2 ≤ inp.length := by
  have hbdd : BddVon inp.length (parse inp e s).2.cntxV := parse_bdd inp e he s hs
  refine ⟨?_, hbdd, bddVon_getLastD hbdd⟩
  intro cls hcls h0
  have hnm : ¬(cls.contains
      (byteAt inp (if s.level ≠ 0 then zero_parse inp (back s) else back s)) = true) := by
    rw [h0, hcls]
    exact Bool.false_ne_true
  rw [parse_tok, if_neg hnm]

theorem claim_C10_witness :
    (∀ p ∈ (parse [97] (.tok [97]) (initState none)).2.cntxV, p ≤ 1) ∧
    parse [97] (.tok [98]) ⟨[1, 1], 1, none, 0⟩ = (0, ⟨[1, 1], 1, none, 0⟩) := by
  constructor
  · exact (claim_C10 [97] (.tok [97]) (by simp [noNulTok]) (initState none)
      (by decide)).2.1
  · exact (claim_C10 [97] (.tok [98]) (by simp [noNulTok]) ⟨[1, 1], 1, none, 0⟩
      (by decide)).1 [98] (by decide) (by decide)


/-! ### The accept-best fold of `_Or::_parse` -/

/-- Canonical cursor advance of a node (non-negative by `canonTop_ge`). -/
def adv (inp : List Nat) (e : Expr) (lvl t : Nat) : Int :=
  (canonTop inp e lvl t : Int) - (t : Int)

/-- The status accumulated by the alternation loop over the tried children:
each child status is ORed in, then `Ok|Ret|Error` are cleared for the next
round. -/
def altAcc (inp : List Nat) (lvl t : Nat) : List Expr → Nat → Nat
  | [], stat => stat
  | c :: r, stat =>
    altAcc inp lvl t r (andNot (stat ||| canonSt inp c lvl t) (eOk ||| eRet ||| eError))

/-- The best-advance fold of the alternation loop under the default policy:
a child replaces the running best exactly when it succeeds and its advance
strictly exceeds the best so far (so ties keep the first occurrence). -/
def altPick (inp : List Nat) (lvl t : Nat) : List Expr → Int × List Nat → Int × List Nat
  | [], p => p
  | c :: r, p =>
    altPick inp lvl t r
      (if canonSt inp c lvl t &&& eOk ≠ 0 ∧ p.1 < adv inp c lvl t
       then (adv inp c lvl t, canonD inp c lvl t) else p)

theorem adv_nonneg (inp : List Nat) (e : Expr) (lvl t : Nat) : 0 ≤ adv inp e lvl t := by
  have := canonTop_ge inp e lvl t
  unfold adv
  omega

theorem altPick_inv (inp : List Nat) (lvl t : Nat) :
    ∀ (cs : List Expr) (mx : Int) (γ : List Nat),
      0 ≤ mx → ((γ.getLastD t : Int) = t + mx) →
      0 ≤ (altPick inp lvl t cs (mx, γ)).1 ∧
      (((altPick inp lvl t cs (mx, γ)).2).getLastD t : Int) =
        t + (altPick inp lvl t cs (mx, γ)).1 := by
  intro cs
  induction cs with
  | nil =>
    intro mx γ h1 h2
    exact ⟨h1, h2⟩
  | cons c r ih =>
    intro mx γ h1 h2
    simp only [altPick]
    by_cases hc : canonSt inp c lvl t &&& eOk ≠ 0 ∧ mx < adv inp c lvl t
    · rw [if_pos hc]
      refine ih (adv inp c lvl t) (canonD inp c lvl t) (adv_nonneg inp c lvl t) ?_
      have := canonTop_ge inp c lvl t
      unfold adv
      unfold canonTop at *
      omega
    · rw [if_neg hc]
      exact ih mx γ h1 h2

theorem altPick_mono (inp : List Nat) (lvl t : Nat) :
    ∀ (cs : List Expr) (mx : Int) (γ : List Nat),
      mx ≤ (altPick inp lvl t cs (mx, γ)).1 := by
  intro cs
  induction cs with
  | nil =>
    intro mx γ
    exact le_refl mx
  | cons c r ih =>
    intro mx γ
    simp only [altPick]
    by_cases hc : canonSt inp c lvl t &&& eOk ≠ 0 ∧ mx < adv inp c lvl t
    · rw [if_pos hc]
      exact le_trans (le_of_lt hc.2) (ih _ _)
    · rw [if_neg hc]
      exact ih mx γ

theorem altPick_ge (inp : List Nat) (lvl t : Nat) :
    ∀ (cs : List Expr) (mx : Int) (γ : List Nat) (c : Expr), c ∈ cs →
      canonSt inp c lvl t &&& eOk ≠ 0 →
      adv inp c lvl t ≤ (altPick inp lvl t cs (mx, γ)).1 := by
  intro cs
  induction cs with
  | nil =>
    intro mx γ c hc
    cases hc
  | cons c0 r ih =>
    intro mx γ c hc hok
    rcases List.mem_cons.mp hc with rfl | hmem
    · simp only [altPick]
      by_cases hc0 : canonSt inp c lvl t &&& eOk ≠ 0 ∧ mx < adv inp c lvl t
      · rw [if_pos hc0]
        exact altPick_mono inp lvl t r _ _
      · rw [if_neg hc0]
        have hle : adv inp c lvl t ≤ mx := by
          rcases not_and_or.mp hc0 with h | h
          · exact absurd hok h
          · omega
        exact le_trans hle (altPick_mono inp lvl t r _ _)
    · simp only [altPick]
      by_cases hc0 : canonSt inp c0 lvl t &&& eOk ≠ 0 ∧ mx < adv inp c0 lvl t
      · rw [if_pos hc0]
        exact ih _ _ c hmem hok
      · rw [if_neg hc0]
        exact ih _ _ c hmem hok


/-- The alternation loop under the default policy (no `AcceptFirst`, no
`Return`, no errors among the children): it never breaks early, accumulates
every tried child's status, and keeps the entries of the first child
achieving the strictly best advance. -/
theorem orLoop_policy (inp : List Nat) (lvl t : Nat) :
    ∀ (cs : List Expr) (stat : Nat) (mx tmp : Int) (γ : List Nat),
      (∀ c ∈ cs, canonSt inp c lvl t &&& (eRet ||| e1st ||| eError) = 0) →
      stat &&& (eOk ||| eRet ||| eError ||| e1st) = 0 →
      ((mx ≠ 0 ∨ tmp ≥ 0) ∨ ∃ c ∈ cs, canonSt inp c lvl t &&& eOk ≠ 0) →
      ∀ v U o, v ≠ [] → v.getLastD 0 = t →
        (orLoop (cs.map (parse inp)) stat mx tmp t v.length ⟨v ++ γ, lvl, U, o⟩).1 =
          andNot (altAcc inp lvl t cs stat ||| eOk) (e1st ||| eRet) ∧
        (orLoop (cs.map (parse inp)) stat mx tmp t v.length ⟨v ++ γ, lvl, U, o⟩).2.cntxV =
          v ++ (altPick inp lvl t cs (mx, γ)).2 := by
  intro cs
  induction cs with
  | nil =>
    intro stat mx tmp γ hpol hstat hdisj v U o hv hl
    have hfin : mx ≠ 0 ∨ tmp ≥ 0 := by
      rcases hdisj with h | ⟨c, hc, _⟩
      · exact h
      · cases hc
    simp only [List.map_nil, orLoop, altAcc, altPick]
    rw [finishOr, if_pos hfin]
    exact ⟨by trivial, by trivial⟩
  | cons c r ih =>
    intro stat mx tmp γ hpol hstat hdisj v U o hv hl
    have hpol0 : canonSt inp c lvl t &&& (eRet ||| e1st ||| eError) = 0 := hpol c (by simp)
    have hpolr : ∀ c' ∈ r, canonSt inp c' lvl t &&& (eRet ||| e1st ||| eError) = 0 :=
      fun c' hc' => hpol c' (by simp [hc'])
    have hbrk0 : (stat ||| canonSt inp c lvl t) &&& (eRet ||| e1st ||| eError) = 0 := by
      have h1 : stat &&& (eRet ||| e1st ||| eError) = 0 :=
        (land_sub hstat _ (by decide)).trans (by decide)
      rw [land_lor_right, h1, hpol0]
      decide
    have hcondEq : (stat ||| canonSt inp c lvl t) &&& (eOk ||| eError) = canonSt inp c lvl t &&& eOk := by
      have h2 : stat &&& (eOk ||| eError) = 0 :=
        (land_sub hstat _ (by decide)).trans (by decide)
      have h3 : canonSt inp c lvl t &&& eError = 0 :=
        (land_sub hpol0 _ (by decide)).trans (by decide)
      rw [land_lor_right, h2, Nat.zero_or, Nat.land_comm (canonSt inp c lvl t) (eOk ||| eError),
        land_lor_right, Nat.land_comm eOk (canonSt inp c lvl t), Nat.land_comm eError (canonSt inp c lvl t), h3,
        lor_zero_eq]
    have hclean2 : andNot (stat ||| canonSt inp c lvl t) (eOk ||| eRet ||| eError) &&&
        (eOk ||| eRet ||| eError ||| e1st) = 0 := by
      rw [andNot_land, show (0xFFFFFFFF ^^^ (eOk ||| eRet ||| eError)) &&&
        (eOk ||| eRet ||| eError ||| e1st) = e1st by decide, land_lor_right]
      have h4 : stat &&& e1st = 0 := (land_sub hstat _ (by decide)).trans (by decide)
      have h5 : canonSt inp c lvl t &&& e1st = 0 := (land_sub hpol0 _ (by decide)).trans (by decide)
      rw [h4, h5]
      decide
    have ha0 : (0 : Int) ≤ ((canonD inp c lvl t).getLastD t : Int) - (t : Int) := by
      have := canonTop_ge inp c lvl t
      unfold canonTop at this
      omega
    obtain ⟨U', heq⟩ := orLoop_step (fun v U o hv hl => parse_canon inp c lvl t v U o hv hl)
      (r.map (parse inp)) stat mx tmp γ v U o hv hl
    simp only [List.map_cons]
    rw [heq]
    by_cases hOk : canonSt inp c lvl t &&& eOk ≠ 0
    · have hcond : (stat ||| canonSt inp c lvl t) &&& (eOk ||| eError) ≠ 0 := by
        rw [hcondEq]
        exact hOk
      rw [if_pos hcond]
      by_cases hgt : ((canonD inp c lvl t).getLastD t : Int) - (t : Int) > mx
      · rw [if_pos (Or.inl hgt)]
        rw [if_neg (not_not_intro hbrk0)]
        have hrec := ih (andNot (stat ||| canonSt inp c lvl t) (eOk ||| eRet ||| eError))
          (((canonD inp c lvl t).getLastD t : Int) - (t : Int)) (((canonD inp c lvl t).getLastD t : Int) - (t : Int)) (canonD inp c lvl t) hpolr hclean2 (Or.inl (Or.inr ha0)) v U' o hv hl
        have hgt2 : mx < adv inp c lvl t := hgt
        have hpick : altPick inp lvl t (c :: r) (mx, γ) =
            altPick inp lvl t r (adv inp c lvl t, canonD inp c lvl t) := by
          simp only [altPick]
          rw [if_pos ⟨hOk, hgt2⟩]
        refine ⟨hrec.1, ?_⟩
        rw [hpick]
        exact hrec.2
      · have hnacc : ¬(((canonD inp c lvl t).getLastD t : Int) - (t : Int) > mx ∨ (((canonD inp c lvl t).getLastD t : Int) - (t : Int) > 0 ∧
            (stat ||| canonSt inp c lvl t) &&& (eRet ||| e1st ||| eError) ≠ 0)) := by
          rintro (h | ⟨_, hb⟩)
          · exact hgt h
          · exact hb hbrk0
        rw [if_neg hnacc]
        have hrec := ih (andNot (stat ||| canonSt inp c lvl t) (eOk ||| eRet ||| eError))
          mx (((canonD inp c lvl t).getLastD t : Int) - (t : Int)) γ hpolr hclean2 (Or.inl (Or.inr ha0)) v U' o hv hl
        have hpick : altPick inp lvl t (c :: r) (mx, γ) = altPick inp lvl t r (mx, γ) := by
          simp only [altPick]
          rw [if_neg (fun h => hgt h.2)]
        refine ⟨hrec.1, ?_⟩
        rw [hpick]
        exact hrec.2
    · have hcond0 : (stat ||| canonSt inp c lvl t) &&& (eOk ||| eError) = 0 := by
        rw [hcondEq]
        exact not_ne_iff.mp hOk
      rw [if_neg (not_not_intro hcond0)]
      have hdisj2 : (mx ≠ 0 ∨ tmp ≥ 0) ∨
          ∃ c' ∈ r, canonSt inp c' lvl t &&& eOk ≠ 0 := by
        rcases hdisj with h | ⟨c', hc', hCk⟩
        · exact Or.inl h
        · rcases List.mem_cons.mp hc' with rfl | hmem
          · exact absurd hCk hOk
          · exact Or.inr ⟨c', hmem, hCk⟩
      have hrec := ih (andNot (stat ||| canonSt inp c lvl t) (eOk ||| eRet ||| eError))
        mx tmp γ hpolr hclean2 hdisj2 v U' o hv hl
      have hpick : altPick inp lvl t (c :: r) (mx, γ) = altPick inp lvl t r (mx, γ) := by
        simp only [altPick]
        rw [if_neg (fun h => hOk h.1)]
      refine ⟨hrec.1, ?_⟩
      rw [hpick]
      exact hrec.2


/-- C1 (amended): an alternation under the default policy (no child status
carries `Ret`, `AcceptFirst` or `Error`), with at least one succeeding child,
tries each child from the same starting cursor and accepts the first child
achieving the strictly greatest cursor advance (`altPick`: a child replaces
the running best only when its advance strictly exceeds it, so ties keep the
first occurrence); the accepted child's cursor entries are the ones kept and
the result's advance is the maximum of all succeeding children's advances.
The returned status, however, is not the winning child's status: it is the
accumulated OR of every tried child's status (with `Ok|Ret|Error` cleared
between rounds and `Ok` set at the end), so informational bits of rejected
children survive in it. -/
theorem claim_C1 (inp : List Nat) (cs : List Expr) (s : PState) (hv : s.cntxV ≠ [])
    (hpol : ∀ c ∈ cs, canonSt inp c s.level (back s) &&& (eRet ||| e1st ||| eError) = 0)
    (hex : ∃ c ∈ cs, canonSt inp c s.level (back s) &&& eOk ≠ 0) :
    (parse inp (.alt cs) s).1 =
      andNot (altAcc inp s.level (back s) cs 0 ||| eOk) (e1st ||| eRet) ∧
    (parse inp (.alt cs) s).1 &&& eOk ≠ 0 ∧
    (parse inp (.alt cs) s).2.cntxV =
      s.cntxV ++ (altPick inp s.level (back s) cs (0, [])).2 ∧
    (back (parse inp (.alt cs) s).2 : Int) =
      (back s : Int) + (altPick inp s.level (back s) cs (0, [])).1 ∧
    (∀ c ∈ cs, canonSt inp c s.level (back s) &&& eOk ≠ 0 →
      adv inp c s.level (back s) ≤ (altPick inp s.level (back s) cs (0, [])).1) := by
  obtain ⟨v, lvl, U, o⟩ := s
  have hv' : v ≠ [] := hv
  rw [parse_alt]
  simp only [back]
  have hrun := orLoop_policy inp lvl (v.getLastD 0) cs 0 0 (-1) [] hpol (by decide)
    (Or.inr hex) v U o hv' rfl
  simp only [List.append_nil] at hrun
  refine ⟨hrun.1, ?_, hrun.2, ?_, ?_⟩
  · rw [hrun.1, andNot_land,
      show (0xFFFFFFFF ^^^ (e1st ||| eRet)) &&& eOk = eOk by decide, land_eOk_of_lor]
    decide
  · have hinv := (altPick_inv inp lvl (v.getLastD 0) cs 0 [] (le_refl 0) (by simp)).2
    rw [hrun.2, getLastD_append]
    exact hinv
  · intro c hc hok
    exact altPick_ge inp lvl (v.getLastD 0) cs 0 [] c hc hok

theorem claim_C1_witness :
    (parse [98] (.alt [.tok [97], .tok [98]]) (initState none)).1 =
      andNot (altAcc [98] 1 0 [.tok [97], .tok [98]] 0 ||| eOk) (e1st ||| eRet) ∧
    (parse [98] (.alt [.tok [97], .tok [98]]) (initState none)).1 &&& eOk ≠ 0 := by
  have h := claim_C1 [98] [.tok [97], .tok [98]] (initState none) (by decide)
    (by
      intro c hc
      rcases List.mem_cons.mp hc with rfl | hc2
      · simp only [canonSt, canon, parse_tok, initState, back]
        simp [zero_parse, wsRun, byteAt, isWs]
        try decide
      · rcases List.mem_cons.mp hc2 with rfl | hc3
        · simp only [canonSt, canon, parse_tok, initState, back]
          simp [zero_parse, wsRun, byteAt, isWs]
          try decide
        · cases hc3)
    (by
      refine ⟨.tok [98], by simp, ?_⟩
      simp only [canonSt, canon, parse_tok, initState, back]
      simp [zero_parse, wsRun, byteAt, isWs]
      try decide)
  exact ⟨h.1, h.2.1⟩

/-- C1 counterexample to the "status and semantic values of the winner are
kept" part, in two scenarios.  Status: in the alternation of a repetition
carrying the informational `Over` bit (advance 1 over input `"ab"`) and a
two-terminal sequence (advance 2), the sequence wins the accept-best race —
the final cursor is 2 — and its own canonical status has no `Over`, yet the
alternation's returned status still carries the rejected child's `Over` bit.
Semantic values: in the alternation of `Token("a")` (advance 1, stub `(0,1)`)
and a `Lexem` matching `"ab"` (advance 2, stub `(0,2)`), run from the initial
parser context with a live semantic frame, the `Lexem` wins — the final
cursor is 2 — yet the final semantic frame holds only the rejected child's
stub `(0,1)`: the best-replacement `_erase(size, msize+1)` deletes the
winner's semantic value at the root frame and keeps the loser's, while the
`Lexem` alone would leave exactly `(0,2)`. -/
theorem claim_C1_cex :
    back (parse [97, 98]
      (.alt [.cyc 0 1 eOver (.tok [97]), .seq [.tok [97], .tok [98]]])
      (initState none)).2 = 2 ∧
    canonSt [97, 98] (.seq [.tok [97], .tok [98]]) 1 0 &&& eOver = 0 ∧
    (parse [97, 98]
      (.alt [.cyc 0 1 eOver (.tok [97]), .seq [.tok [97], .tok [98]]])
      (initState none)).1 &&& eOver ≠ 0 ∧
    back (parse [97, 98]
      (.alt [.tok [97], .lex (some (.seq [.tok [97], .tok [98]]))])
      (initState (some []))).2 = 2 ∧
    (parse [97, 98]
      (.alt [.tok [97], .lex (some (.seq [.tok [97], .tok [98]]))])
      (initState (some []))).2.cntxU = some [(0, 1)] ∧
    (parse [97, 98] (.lex (some (.seq [.tok [97], .tok [98]])))
      (initState (some []))).2.cntxU = some [(0, 2)] ∧
    (parse [97, 98] (.tok [97]) (initState (some []))).2.cntxU = some [(0, 1)] := by
  have hA : parse [97, 98]
      (.alt [.cyc 0 1 eOver (.tok [97]), .seq [.tok [97], .tok [98]]])
      (initState none) = (3073, ⟨[0, 0, 0, 1, 1, 2], 1, none, 0⟩) := by
    simp [parse_alt, orLoop, finishOr, parse_cyc, cycLoop, parse_seq, andLoop,
      parse_tok, initState, back, zero_parse, wsRun, byteAt, isWs, andNot,
      resizeV, eraseTo, eraseRange, stubPush]
    decide
  have h1 : parse [97, 98] (.tok [97]) ⟨[0, 0], 1, some [], 0⟩ =
      (1, ⟨[0, 0, 0, 1], 1, some [(0, 1)], 0⟩) := by
    simp [parse_tok, back, zero_parse, wsRun, byteAt, isWs, stubPush]
    decide
  have h2 : parse [97, 98] (.lex (some (.seq [.tok [97], .tok [98]])))
      ⟨[0, 0, 0, 1, 0], 1, some [(0, 1)], 0⟩ =
      (2049, ⟨[0, 0, 0, 1, 0, 0, 2], 1, some [(0, 1), (0, 2)], 0⟩) := by
    simp [parse_lex_some, parse_seq, andLoop, parse_tok, back, zero_parse, wsRun,
      byteAt, isWs, andNot, resizeV, eraseTo, stubPush, eOk, eError, eEof, eTry,
      eSkipBit, eRet, eOver]
    decide
  have hB : parse [97, 98]
      (.alt [.tok [97], .lex (some (.seq [.tok [97], .tok [98]]))])
      (initState (some [])) = (2049, ⟨[0, 0, 0, 2], 1, some [(0, 1)], 0⟩) := by
    rw [parse_alt]
    simp [orLoop, finishOr, h1, h2, initState, back, eraseRange, eraseTo, andNot,
      eOk, eError, eRet, e1st, eOver, eEof]
    decide
  have hC : parse [97, 98] (.lex (some (.seq [.tok [97], .tok [98]])))
      (initState (some [])) = (2049, ⟨[0, 0, 0, 2], 1, some [(0, 2)], 0⟩) := by
    simp [parse_lex_some, parse_seq, andLoop, parse_tok, initState, back,
      zero_parse, wsRun, byteAt, isWs, andNot, resizeV, eraseTo, stubPush]
    decide
  have hD : parse [97, 98] (.tok [97]) (initState (some [])) =
      (1, ⟨[0, 0, 0, 1], 1, some [(0, 1)], 0⟩) := by
    simp [parse_tok, initState, back, zero_parse, wsRun, byteAt, isWs, stubPush]
    decide
  have hE : canonSt [97, 98] (.seq [.tok [97], .tok [98]]) 1 0 = 2049 := by
    simp [canonSt, canon, parse_seq, andLoop, parse_tok, back, zero_parse, wsRun,
      byteAt, isWs, andNot]
    decide
  rw [hA, hB, hC, hD, hE]
  refine ⟨rfl, by decide, by decide, rfl, rfl, rfl, rfl⟩

end Bnf
